import Mathlib

/-!
Verification development for the Minecraft-plugin generation service
(Express/TypeScript API in `src/routes/apiRoutes.ts`, auth middleware in
`src/middlewares/authMiddleware.ts`, and the Maven build/fix shell script
`bash.sh`).

Strings are modelled as `List Char` (`Str`), JavaScript objects holding a
file tree as association lists in insertion order (`FileTree`), and each
regular expression from the source is embedded as an explicit executable
scanner with the same backtracking behaviour (leftmost match, lazy or
greedy quantifiers as written in the source pattern).
-/

set_option autoImplicit false

namespace GemniApi

/-- Strings are modelled as lists of characters. -/
abbrev Str := List Char

/-- Embed a Lean string literal as a `Str`. -/
def lit (s : String) : Str := s.toList

/-- A JavaScript object mapping file paths to file contents, in property
insertion order. -/
abbrev FileTree := List (Str × Str)

/-- `headMatch pat s` is true iff `pat` is a prefix of `s`
(the model of `String.prototype.startsWith` and of matching a literal
at the current scan position). -/
def headMatch : Str → Str → Bool
  | [], _ => true
  | _ :: _, [] => false
  | a :: p, b :: s => a == b && headMatch p s

/-- `hasSub pat s` is true iff `pat` occurs as a contiguous substring of `s`
(the model of `String.prototype.includes`). -/
def hasSub (pat : Str) : Str → Bool
  | [] => headMatch pat []
  | s@(_ :: t) => headMatch pat s || hasSub pat t

/-- Per-character lower-casing, the model of `String.prototype.toLowerCase`
on the ASCII data this service manipulates. -/
def lowerStr (s : Str) : Str := s.map Char.toLower

/-- The whitespace characters recognised by the JavaScript `\s` class and
`String.prototype.trim` that occur in this service's data. -/
def isWS (c : Char) : Bool := c == ' ' || c == '\t' || c == '\n' || c == '\r'

/-- Drop leading whitespace. -/
def trimL (s : Str) : Str := s.dropWhile isWS

/-- Drop trailing whitespace. -/
def trimR : Str → Str
  | [] => []
  | c :: t =>
    match trimR t with
    | [] => if isWS c then [] else [c]
    | r => c :: r

/-- The model of `String.prototype.trim`. -/
def trimStr (s : Str) : Str := trimL (trimR s)

/-- Split on a single space, keeping empty components: the model of
`String.prototype.split(' ')` (used by the auth middleware). -/
def splitSp : Str → List Str
  | [] => [[]]
  | c :: t =>
    match splitSp t with
    | [] => [[]]
    | w :: ws => if c == ' ' then [] :: w :: ws else (c :: w) :: ws

/-- Join strings with `","`: the model of `Array.prototype.join()` with no
argument (used on `Object.keys(files)` for the fix-route cache key). -/
def joinComma : List Str → Str
  | [] => []
  | [w] => w
  | w :: ws => w ++ ',' :: joinComma ws

/-- Model-selector embedding (`MODEL_CONFIG` and the fix route's
`isComplexError` at `apiRoutes.ts:30-41,588-591`). -/
inductive Tier
  | flash
  | pro
deriving DecidableEq

/-- The two sampling profiles each tier carries in `MODEL_CONFIG`. -/
inductive Profile
  | precision
  | creative
deriving DecidableEq

/-- Temperatures of `MODEL_CONFIG`, scaled by ten to stay in `Nat`
(0.1 ↦ 1, 1.5 ↦ 15, 0.2 ↦ 2). -/
def tempTenths : Tier → Profile → Nat
  | Tier.flash, Profile.precision => 1
  | Tier.flash, Profile.creative => 15
  | Tier.pro, Profile.precision => 1
  | Tier.pro, Profile.creative => 2

/-- `isComplexError` from the fix route:
`buildErrors.length > 500 || Object.keys(files).length > 5`. -/
def isComplexError (buildErrors : Str) (files : FileTree) : Bool :=
  decide (500 < buildErrors.length) || decide (5 < files.length)

/-- The fix route's model choice: the pro tier when the error is complex,
the flash tier otherwise, always paired with that tier's precision profile
(`getModel(modelConfig, modelConfig.precision)`). -/
def fixModelChoice (buildErrors : Str) (files : FileTree) : Tier × Profile :=
  (if isComplexError buildErrors files then Tier.pro else Tier.flash,
   Profile.precision)

/-- Look a path up in a `FileTree` (JavaScript property read `files[path]`). -/
def lookupTree (t : FileTree) (p : Str) : Option Str :=
  (t.find? (fun e => e.1 == p)).map (fun e => e.2)

/-- JavaScript property assignment `obj[path] = v` on a `FileTree`: an
existing key is overwritten in place, a new key is appended at the end. -/
def setFile (t : FileTree) (p v : Str) : FileTree :=
  if t.any (fun e => e.1 == p) then
    t.map (fun e => if e.1 == p then (p, v) else e)
  else t ++ [(p, v)]

/-- Build a `FileTree` from a list of (path, content) entries by repeated
property assignment, as the extraction loops in the routes do. -/
def buildTree (es : List (Str × Str)) : FileTree :=
  es.foldl (fun t e => setFile t e.1 e.2) []

/-- Outcome of the auth middleware: either the request proceeds to the
protected handler (`next()`), or a 401 response is sent and the handler is
never invoked. -/
inductive AuthOutcome
  | ok
  | reject401
deriving DecidableEq

/-- The literal `"Bearer "` checked by `authHeader.startsWith('Bearer ')`. -/
def bearerSp : Str := lit "Bearer "

/-- `verifyToken` from `src/middlewares/authMiddleware.ts`: reject when the
`Authorization` header is absent or lacks the `Bearer ` scheme, extract the
token as `authHeader.split(' ')[1]`, then reject when `API_TOKEN` is unset
or empty (JavaScript falsiness of `!API_TOKEN`) or differs from the token;
otherwise call `next()`. -/
def verifyToken (authHeader : Option Str) (apiToken : Option Str) : AuthOutcome :=
  match authHeader with
  | none => AuthOutcome.reject401
  | some h =>
    if headMatch bearerSp h then
      let token := (splitSp h).getD 1 []
      match apiToken with
      | none => AuthOutcome.reject401
      | some t =>
        if t == [] then AuthOutcome.reject401
        else if token == t then AuthOutcome.ok
        else AuthOutcome.reject401
    else AuthOutcome.reject401

/-- Kinds of Maven invocation performed by `bash.sh`: a full
`mvn clean package` build, the errors-only `mvn clean compile -e`
transcript run at the top of each fix attempt, and the final degraded
`mvn clean package -Dmaven.shade.skip=true` run. -/
inductive Mvn
  | pkg
  | errOnly
  | degraded
deriving DecidableEq

/-- Observable outcome of one run of `bash.sh`'s build section: the ordered
Maven invocations, the number of fix-API attempts, the number of degraded
builds, and the `success` flag written to `build_result.json`. -/
structure BashRun where
  invocations : List Mvn
  fixCalls : Nat
  degradedRuns : Nat
  success : Bool
deriving DecidableEq

/-- The fallback branch of `bash.sh` after the fix loop ends without a
successful build: one shade-skipping package run, whose result decides
the final `success` flag; `degraded` is reported on success. -/
def degradedStep (shadeRes : Bool) (inv : List Mvn) (fixes : Nat) : BashRun :=
  { invocations := inv ++ [Mvn.degraded]
    fixCalls := fixes
    degradedRuns := 1
    success := shadeRes }

/-- The AI-fix loop of `bash.sh` (`while [ $AI_FIX_ATTEMPTS -lt $MAX ]`):
each iteration captures errors with `mvn clean compile -e`, calls the fix
API (modelled as always returning fixes, as the claim's compiler-stub
scenario assumes), rebuilds with `mvn clean package`, and stops early on a
successful build; `pkgRes i` is the exit status of the package build of
attempt `i`. -/
def goLoop (pkgRes : Nat → Bool) (shadeRes : Bool) :
    Nat → Nat → List Mvn → Nat → BashRun
  | _, 0, inv, fixes => degradedStep shadeRes inv fixes
  | i, n + 1, inv, fixes =>
    let inv2 := inv ++ [Mvn.errOnly, Mvn.pkg]
    if pkgRes i then
      { invocations := inv2, fixCalls := fixes + 1, degradedRuns := 0, success := true }
    else goLoop pkgRes shadeRes (i + 1) n inv2 (fixes + 1)

/-- The build section of `bash.sh`: an initial `mvn clean package`; on
failure, up to `maxA` fix attempts (`MAX_AI_FIX_ATTEMPTS`, 5 in the
script), then the degraded fallback.  A successful package build is
modelled as also producing a JAR. -/
def bashBuild (pkgRes : Nat → Bool) (shadeRes : Bool) (maxA : Nat) : BashRun :=
  if pkgRes 0 then
    { invocations := [Mvn.pkg], fixCalls := 0, degradedRuns := 0, success := true }
  else goLoop pkgRes shadeRes 1 maxA [Mvn.pkg] 0

/-- The always-failing compiler stub of the claim. -/
def alwaysFail : Nat → Bool := fun _ => false

/-- The `errOnly`/`pkg` invocation pairs produced by `n` iterations of the
fix loop. -/
def errPkgChunks : Nat → List Mvn
  | 0 => []
  | n + 1 => Mvn.errOnly :: Mvn.pkg :: errPkgChunks n

/-- Number of full `mvn clean package` invocations in a trace. -/
def pkgCount (l : List Mvn) : Nat :=
  (l.filter (fun m => m == Mvn.pkg)).length

/-- The literal "```" opening or closing a markdown code fence. -/
def tick3 : Str := lit "```"

/-- The fence language tags accepted by `MARKDOWN_CODE_PATTERN`
(`(?:java|xml|yml|yaml)?`), in the pattern's alternation order. -/
def dropFenceLang (s : Str) : Str :=
  if headMatch (lit "java") s then s.drop 4
  else if headMatch (lit "xml") s then s.drop 3
  else if headMatch (lit "yml") s then s.drop 3
  else if headMatch (lit "yaml") s then s.drop 4
  else s

/-- One pass of the global replace with `MARKDOWN_CODE_PATTERN`
(`/^```(?:java|xml|yml|yaml)?\s*\n?|```\s*$|```/g`, replacement empty):
`atStart` records whether the scan is still at position 0 (where the
`^`-anchored first alternative applies); the second alternative consumes a
final fence followed only by whitespace; the third consumes a bare fence. -/
def cleanGo : Nat → Bool → Str → Str
  | 0, _, s => s
  | _ + 1, _, [] => []
  | f + 1, atStart, s@(c :: t) =>
    if atStart && headMatch tick3 s then
      cleanGo f false ((dropFenceLang (s.drop 3)).dropWhile isWS)
    else if headMatch tick3 s && (s.drop 3).all isWS then []
    else if headMatch tick3 s then cleanGo f false (s.drop 3)
    else c :: cleanGo f false t

/-- The `cleanContent` helper (`content.replace(MARKDOWN_CODE_PATTERN, "")`). -/
def cleanContent (s : Str) : Str := cleanGo s.length true s

/-- The start marker of `FILE_PATTERN` (`---FILE_START:`). -/
def mStart : Str := lit "---FILE_START:"

/-- The end marker of `FILE_PATTERN` (`---FILE_END---`). -/
def mEnd : Str := lit "---FILE_END---"

/-- The three dashes closing the path group of `FILE_PATTERN`. -/
def dash3 : Str := lit "---"

/-- Lazy scan of `FILE_PATTERN`'s content group (`([\s\S]*?)` followed by
`---FILE_END---`): the content is everything up to the first occurrence of
the end marker; without one the match fails. -/
def scanEnd : Str → Option (Str × Str)
  | [] => none
  | c :: t =>
    if headMatch mEnd (c :: t) then some ([], (c :: t).drop 14)
    else (scanEnd t).map (fun cr => (c :: cr.1, cr.2))

/-- Lazy scan of `FILE_PATTERN`'s path group (`(.*?)` followed by `---`):
at each position the scanner first tries to close the path (which requires
the rest of the pattern — content and end marker — to match) and otherwise
extends the path by one non-newline character, exactly the backtracking
order of the lazy quantifier. -/
def scanPathC : Str → Option (Str × Str × Str)
  | [] => none
  | c :: t =>
    match (if headMatch dash3 (c :: t) then scanEnd ((c :: t).drop 3) else none) with
    | some cr => some ([], cr.1, cr.2)
    | none =>
      if c == '\n' then none
      else (scanPathC t).map (fun pcr => (c :: pcr.1, pcr.2.1, pcr.2.2))

/-- Attempt to match `FILE_PATTERN` at the current position: the literal
start marker, then path and content groups.  Returns (path, content,
rest-of-input after the match). -/
def tryMatch (s : Str) : Option (Str × Str × Str) :=
  if headMatch mStart s then scanPathC (s.drop 14) else none

/-- Global scan with `FILE_PATTERN` (the `while FILE_PATTERN.exec(...)`
loops): try to match at each position, emitting the raw (path, content)
groups of every match in document order, resuming after each match. -/
def extractGo : Nat → Str → List (Str × Str)
  | 0, _ => []
  | f + 1, s =>
    match tryMatch s with
    | some pcr => (pcr.1, pcr.2.1) :: extractGo f pcr.2.2
    | none =>
      match s with
      | [] => []
      | _ :: t => extractGo f t

/-- All raw matches of `FILE_PATTERN` in the text. -/
def extractRaw (s : Str) : List (Str × Str) := extractGo s.length s

/-- The shared extraction-loop entry processing of the routes:
`fileMatch[1].trim()` for the path and `cleanContent(fileMatch[2].trim())`
for the content. -/
def extractEntries (s : Str) : List (Str × Str) :=
  (extractRaw s).map (fun pc => (trimStr pc.1, cleanContent (trimStr pc.2)))

/-- The extraction loop's resulting file object: every entry is assigned
into a fresh JavaScript object in match order (so a duplicate path
overwrites the earlier one). -/
def extractFiles (s : Str) : FileTree := buildTree (extractEntries s)

/-- Steps of the synchronous generation pipeline of the create route
(`extractPluginName`, the parallel refine/blueprint calls, the file-list
call, the multi-file call, the conditional consistency check, and the
optional compile). -/
inductive PipelineStep
  | nameModelCall
  | refineModelCall
  | blueprintModelCall
  | fileListModelCall
  | multiFileModelCall
  | consistencyModelCall
  | compileInvocation
deriving DecidableEq

/-- The 202 body sent by the async branch of the create route:
`formatApiResponse(true, "Plugin generation started", {buildId,
status: "pending", statusCheckUrl})`. -/
structure AsyncCreateResponse where
  httpStatus : Nat
  success : Bool
  message : Str
  buildId : Str
  statusField : Str
  statusCheckUrl : Str
deriving DecidableEq

/-- The immediate response of the async branch (`apiRoutes.ts:716-727`). -/
def createAsyncResponse (buildId : Str) : AsyncCreateResponse :=
  { httpStatus := 202
    success := true
    message := lit "Plugin generation started"
    buildId := buildId
    statusField := lit "pending"
    statusCheckUrl := lit "/api/build/status/" ++ buildId }

/-- The background task spawned by the async branch
(`apiRoutes.ts:729-737`): its body contains no pipeline work at all, only
a `console.log` placeholder where the generation code was meant to go. -/
def createAsyncBackground (_buildId : Str) : List PipelineStep := []

/-- The model-call/compile sequence the synchronous path runs
(`apiRoutes.ts:769-1117`): name extraction, the two parallel
refine/blueprint calls, the file-list call, the multi-file call, a
consistency check when more than one file was produced, and the compile
step when `compile === true`. -/
def createSyncPipeline (fileCount : Nat) (compileRequested : Bool) :
    List PipelineStep :=
  [PipelineStep.nameModelCall, PipelineStep.refineModelCall,
   PipelineStep.blueprintModelCall, PipelineStep.fileListModelCall,
   PipelineStep.multiFileModelCall] ++
  (if 1 < fileCount then [PipelineStep.consistencyModelCall] else []) ++
  (if compileRequested then [PipelineStep.compileInvocation] else [])

/-- The result record `compilePlugin` resolves with. -/
structure CompileResultM where
  success : Bool
  jarPath : Option Str
  buildOutput : Str
  buildId : Str
deriving DecidableEq

/-- The create route's 200 response envelope (compile branch,
`apiRoutes.ts:1121-1132`). -/
structure CreateResponse where
  httpStatus : Nat
  statusField : Str
  success : Bool
  message : Str
  data : FileTree
  files : List Str
deriving DecidableEq

/-- The response the create route sends after a compile attempt: HTTP 200
with `status: "success"`, `success: true` (hard-coded), and a message that
depends on the compilation outcome; the validated files are always
included. -/
def createCompileResponse (validated : FileTree) (cr : CompileResultM) :
    CreateResponse :=
  { httpStatus := 200
    statusField := lit "success"
    success := true
    message :=
      if cr.success then lit "Plugin generated and compiled successfully"
      else lit "Plugin generated but compilation failed"
    data := validated
    files := validated.map (fun e => e.1) }

/-- The fix route's JSON envelope: `changedFiles` is present only on the
fresh (non-cached) success response. -/
structure FixResponse where
  httpStatus : Nat
  statusField : Str
  success : Bool
  message : Str
  data : FileTree
  changedFiles : Option Nat
deriving DecidableEq

/-- The fix route's 400 response for a missing `buildErrors`/`files` field. -/
def fixValidationErrorResponse : FixResponse :=
  { httpStatus := 400, statusField := lit "fail", success := false
    message := lit "Request must contain buildErrors and files fields"
    data := [], changedFiles := none }

/-- The fix route's cache-hit response (`apiRoutes.ts:577-586`): no
`changedFiles` field. -/
def fixCachedResponse (cached : FileTree) : FixResponse :=
  { httpStatus := 200, statusField := lit "success", success := true
    message := lit "Files fixed successfully (cached)"
    data := cached, changedFiles := none }

/-- The fix route's fresh success response (`apiRoutes.ts:677-683`):
`changedFiles` counts the extracted entries. -/
def fixFreshResponse (updated : FileTree) : FixResponse :=
  { httpStatus := 200, statusField := lit "success", success := true
    message := lit "Files fixed successfully"
    data := updated, changedFiles := some updated.length }

/-- The fix route's 500 response from the catch-all handler. -/
def fixInternalErrorResponse : FixResponse :=
  { httpStatus := 500, statusField := lit "error", success := false
    message := lit "Failed to fix build issues"
    data := [], changedFiles := none }

/-- Control flow of the fix route around the cache (`apiRoutes.ts:574-683`):
on a hit the cached tree is returned immediately with zero Gemini calls;
otherwise one `generateContent` call produces the response text whose
processed extraction result (passed here as `updated`) is returned fresh.
The second component counts the model calls made. -/
def fixHandler (cacheEntry : Option FileTree) (updated : FileTree) :
    FixResponse × Nat :=
  match cacheEntry with
  | some cached => (fixCachedResponse cached, 0)
  | none => (fixFreshResponse updated, 1)

/-- Field-wise equality of two fix-route responses ignoring only the
`message` field — the claim's notion of "observably equivalent up to the
'(cached)' message". -/
def eqUpToMessage (a b : FixResponse) : Prop :=
  a.httpStatus = b.httpStatus ∧ a.statusField = b.statusField ∧
  a.success = b.success ∧ a.data = b.data ∧ a.changedFiles = b.changedFiles

/-- Reduce to a 32-bit word. -/
def w32 (n : Nat) : Nat := n % 4294967296

/-- 32-bit modular addition. -/
def wadd (a b : Nat) : Nat := w32 (a + b)

/-- 32-bit bitwise complement. -/
def wnot (a : Nat) : Nat := 4294967295 - w32 a

/-- Rotate a 32-bit word left by `s` bits (for `x < 2^32` the two parts
occupy disjoint bit ranges, so addition is bitwise or). -/
def rotl (x s : Nat) : Nat := (x * 2 ^ s) % 4294967296 + x / 2 ^ (32 - s)

/-- The 64 MD5 sine-derived round constants. -/
def md5K : List Nat :=
  [3614090360, 3905402710, 606105819, 3250441966, 4118548399, 1200080426,
   2821735955, 4249261313, 1770035416, 2336552879, 4294925233, 2304563134,
   1804603682, 4254626195, 2792965006, 1236535329, 4129170786, 3225465664,
   643717713, 3921069994, 3593408605, 38016083, 3634488961, 3889429448,
   568446438, 3275163606, 4107603335, 1163531501, 2850285829, 4243563512,
   1735328473, 2368359562, 4294588738, 2272392833, 1839030562, 4259657740,
   2763975236, 1272893353, 4139469664, 3200236656, 681279174, 3936430074,
   3572445317, 76029189, 3654602809, 3873151461, 530742520, 3299628645,
   4096336452, 1126891415, 2878612391, 4237533241, 1700485571, 2399980690,
   4293915773, 2240044497, 1873313359, 4264355552, 2734768916, 1309151649,
   4149444226, 3174756917, 718787259, 3951481745]

/-- The 64 MD5 per-round left-rotation amounts. -/
def md5S : List Nat :=
  [7, 12, 17, 22, 7, 12, 17, 22, 7, 12, 17, 22, 7, 12, 17, 22,
   5, 9, 14, 20, 5, 9, 14, 20, 5, 9, 14, 20, 5, 9, 14, 20,
   4, 11, 16, 23, 4, 11, 16, 23, 4, 11, 16, 23, 4, 11, 16, 23,
   6, 10, 15, 21, 6, 10, 15, 21, 6, 10, 15, 21, 6, 10, 15, 21]

/-- `k` bytes of `n` in little-endian order. -/
def leBytes : Nat → Nat → List Nat
  | 0, _ => []
  | k + 1, n => n % 256 :: leBytes k (n / 256)

/-- Split a byte list into chunks of `sz` bytes (fueled). -/
def chunksGo (sz : Nat) : Nat → List Nat → List (List Nat)
  | 0, _ => []
  | _ + 1, [] => []
  | f + 1, l@(_ :: _) => l.take sz :: chunksGo sz f (l.drop sz)

/-- A little-endian 32-bit word from (up to) four bytes. -/
def leWord (bs : List Nat) : Nat := bs.foldr (fun x acc => x + 256 * acc) 0

/-- The sixteen message words of a 64-byte MD5 block. -/
def blockWords (block : List Nat) : List Nat :=
  (chunksGo 4 block.length block).map leWord

/-- One of the 64 MD5 rounds, acting on the state (a, b, c, d). -/
def md5Round (ws : List Nat) (st : Nat × Nat × Nat × Nat) (i : Nat) :
    Nat × Nat × Nat × Nat :=
  let a := st.1
  let b := st.2.1
  let c := st.2.2.1
  let d := st.2.2.2
  let fg : Nat × Nat :=
    if i < 16 then
      (Nat.lor (Nat.land b c) (Nat.land (wnot b) d), i)
    else if i < 32 then
      (Nat.lor (Nat.land d b) (Nat.land (wnot d) c), (5 * i + 1) % 16)
    else if i < 48 then
      (Nat.xor b (Nat.xor c d), (3 * i + 5) % 16)
    else
      (Nat.xor c (Nat.lor b (wnot d)), (7 * i) % 16)
  let tmp := wadd (wadd (wadd a fg.1) (md5K.getD i 0)) (ws.getD fg.2 0)
  (d, wadd b (rotl tmp (md5S.getD i 0)), b, c)

/-- Process one 64-byte block. -/
def md5Block (st : Nat × Nat × Nat × Nat) (block : List Nat) :
    Nat × Nat × Nat × Nat :=
  let ws := blockWords block
  let r := (List.range 64).foldl (md5Round ws) st
  (wadd st.1 r.1, wadd st.2.1 r.2.1, wadd st.2.2.1 r.2.2.1,
   wadd st.2.2.2 r.2.2.2)

/-- MD5 padding: a 0x80 byte, zeros to 56 mod 64, then the 64-bit
little-endian bit length. -/
def md5Pad (msg : List Nat) : List Nat :=
  let zeros := (56 + 64 - (msg.length + 1) % 64) % 64
  msg ++ 128 :: List.replicate zeros 0 ++ leBytes 8 (8 * msg.length)

/-- Lower-case hex digit. -/
def hexDigit (n : Nat) : Char :=
  if n < 10 then Char.ofNat (48 + n) else Char.ofNat (87 + n)

/-- Two lower-case hex digits of a byte. -/
def byteHex (b : Nat) : Str := [hexDigit (b / 16), hexDigit (b % 16)]

/-- The MD5 digest of a byte list, as a 32-character lower-case hex
string. -/
def md5Bytes (msg : List Nat) : Str :=
  let padded := md5Pad msg
  let st := (chunksGo 64 padded.length padded).foldl md5Block
    (1732584193, 4023233417, 2562383102, 271733878)
  ((leBytes 4 st.1 ++ leBytes 4 st.2.1 ++ leBytes 4 st.2.2.1 ++
    leBytes 4 st.2.2.2).map byteHex).flatten

/-- `hashString`: `crypto.createHash('md5').update(input).digest('hex')`,
on the ASCII data this service hashes (each character one byte). -/
def hashString (s : Str) : Str := md5Bytes (s.map Char.toNat)

/-- The fix route's cache key (`apiRoutes.ts:574-576`):
`hashString(buildErrors + Object.keys(files).join())` — the file paths are
joined with commas in the object's insertion order, not sorted. -/
def fixCacheKey (buildErrors : Str) (files : FileTree) : Str :=
  hashString (buildErrors ++ joinComma (files.map (fun e => e.1)))

/-- Split on `'/'`, keeping empty components
(`String.prototype.split('/')`). -/
def splitSlash : Str → List Str
  | [] => [[]]
  | c :: t =>
    match splitSlash t with
    | [] => [[]]
    | w :: ws => if c == '/' then [] :: w :: ws else (c :: w) :: ws

/-- `path.split('/').pop() || path`: the last slash-separated component,
falling back to the whole path when that component is empty (JavaScript
falsiness of the empty string). -/
def fileNameOf (p : Str) : Str :=
  match (splitSlash p).getLast? with
  | some l => if l == [] then p else l
  | none => p

/-- The fix route's `errorMentionsFile`:
`error.includes(fileName) || error.toLowerCase().includes(fileName.toLowerCase())`. -/
def errMentions (err name : Str) : Bool :=
  hasSub name err || hasSub (lowerStr name) (lowerStr err)

/-- The case-insensitive substring test the spec describes the relevance
filter by. -/
def mentionsCI (err name : Str) : Bool :=
  hasSub (lowerStr name) (lowerStr err)

/-- The key `"pom.xml"` used for the force-include check. -/
def pomKey : Str := lit "pom.xml"

/-- Truthiness of a JavaScript property read on a file tree: the key is
present with a non-empty string value. -/
def truthyAt (t : FileTree) (p : Str) : Bool :=
  match lookupTree t p with
  | some w => w != []
  | none => false

/-- The first pass of the fix route's relevance filter: the files whose
file name is mentioned in the error text. -/
def codeMentioned (buildErrors : Str) (files : FileTree) : FileTree :=
  files.filter (fun e => errMentions buildErrors (fileNameOf e.1))

/-- The state of `relevantFiles` after the second pass: when the first
pass matched nothing, all files are included. -/
def codeBase (buildErrors : Str) (files : FileTree) : FileTree :=
  if (codeMentioned buildErrors files).isEmpty then files
  else codeMentioned buildErrors files

/-- The fix route's relevance filter (`apiRoutes.ts:593-616`): first pass
keeps the files whose file name is mentioned in the error text; if none
matched, all files are kept; then `pom.xml` is force-included when
`files["pom.xml"]` is truthy and the result does not already hold a truthy
`pom.xml`. -/
def relevantFiles (buildErrors : Str) (files : FileTree) : FileTree :=
  match lookupTree files pomKey with
  | some v =>
    if v != [] && !(truthyAt (codeBase buildErrors files) pomKey) then
      setFile (codeBase buildErrors files) pomKey v
    else codeBase buildErrors files
  | none => codeBase buildErrors files

/-- The spec-side first pass: case-insensitive substring mention. -/
def specMentioned (buildErrors : Str) (files : FileTree) : FileTree :=
  files.filter (fun e => mentionsCI buildErrors (fileNameOf e.1))

/-- The spec-side fallback to the entire tree. -/
def specBase (buildErrors : Str) (files : FileTree) : FileTree :=
  if (specMentioned buildErrors files).isEmpty then files
  else specMentioned buildErrors files

/-- The relevance filter as the spec words it (amended only by the
non-empty-content condition on the forced build descriptor): keep the
subset whose file name occurs case-insensitively in the error text, fall
back to the whole tree when that subset is empty, and force-include a
truthy `pom.xml`. -/
def specRelevant (buildErrors : Str) (files : FileTree) : FileTree :=
  match lookupTree files pomKey with
  | some v =>
    if v != [] && !(truthyAt (specBase buildErrors files) pomKey) then
      setFile (specBase buildErrors files) pomKey v
    else specBase buildErrors files
  | none => specBase buildErrors files

/-- The pom-inclusion observation on the filter's output: whenever the
input holds a non-empty `pom.xml`, the output holds a non-empty
`pom.xml`. -/
def pomIncluded (buildErrors : Str) (files : FileTree) : Bool :=
  match lookupTree files pomKey with
  | some v => if v == [] then true else truthyAt (relevantFiles buildErrors files) pomKey
  | none => true

/-- The apostrophe character (U+0027). -/
def apos : Char := Char.ofNat 39

/-- Literal head of the `pig.setAngry` pattern
(`/pig\.setAngry\(([^)]+)\)/g`). -/
def pigPat : Str := lit "pig.setAngry("

/-- The fixed replacement text of the `pig.setAngry` rewrite in
`processJavaFile` (the capture group is not referenced). -/
def pigRepl : Str :=
  lit "// Pig.setAngry() doesn" ++ apos ::
    lit "t exist in Bukkit API \n    pig.setPersistent(true);\n    pig.setCustomName(\"Angry Pig\");\n    pig.setMetadata(\"angry\", new FixedMetadataValue(plugin, true));"

/-- Match `/pig\.setAngry\(([^)]+)\)/` at the current position: the
literal head, then one or more non-`)` characters, then `)`; returns the
rest of the input after the match. -/
def pigMatchAt (s : Str) : Option Str :=
  if headMatch pigPat s then
    (fun r =>
      (fun args =>
        if args.isEmpty then none
        else if args.length < r.length then some (r.drop (args.length + 1))
        else none)
      (r.takeWhile (fun c => c != ')')))
    (s.drop pigPat.length)
  else none

/-- Global replace of the `pig.setAngry` pattern with `pigRepl`. -/
def pigRuleGo : Nat → Str → Str
  | 0, s => s
  | _ + 1, [] => []
  | f + 1, s@(c :: t) =>
    match pigMatchAt s with
    | some rest => pigRepl ++ pigRuleGo f rest
    | none => c :: pigRuleGo f t

/-- The `pig.setAngry` rewrite of `processJavaFile`. -/
def pigRule (s : Str) : Str := pigRuleGo s.length s

/-- Literal head of the JetBrains-import pattern
(`/import org\.jetbrains\.annotations\.[^;]*;(\r?\n|\r)?/g`). -/
def jetPat : Str := lit "import org.jetbrains.annotations."

/-- Match the JetBrains-import pattern at the current position: the
literal head, zero or more non-`;` characters, `;`, then an optional line
break (`\r\n`, `\n` or `\r`, tried in the pattern's preference order). -/
def jetMatchAt (s : Str) : Option Str :=
  if headMatch jetPat s then
    (fun r =>
      (fun mid =>
        if mid.length < r.length then
          (fun r2 =>
            if headMatch (lit "\r\n") r2 then some (r2.drop 2)
            else if headMatch (lit "\n") r2 then some (r2.drop 1)
            else if headMatch (lit "\r") r2 then some (r2.drop 1)
            else some r2)
          (r.drop (mid.length + 1))
        else none)
      (r.takeWhile (fun c => c != ';')))
    (s.drop jetPat.length)
  else none

/-- Global removal of JetBrains imports. -/
def jetRuleGo : Nat → Str → Str
  | 0, s => s
  | _ + 1, [] => []
  | f + 1, s@(c :: t) =>
    match jetMatchAt s with
    | some rest => jetRuleGo f rest
    | none => c :: jetRuleGo f t

/-- The JetBrains-import removal of `processJavaFile`. -/
def jetRule (s : Str) : Str := jetRuleGo s.length s

/-- First alternative of `/@NotNull |@Nullable /g`. -/
def annotPatA : Str := lit "@NotNull "

/-- Second alternative of `/@NotNull |@Nullable /g`. -/
def annotPatB : Str := lit "@Nullable "

/-- Global removal of the two annotation tokens (alternation tried in
pattern order at each position). -/
def annotRuleGo : Nat → Str → Str
  | 0, s => s
  | _ + 1, [] => []
  | f + 1, s@(c :: t) =>
    if headMatch annotPatA s then annotRuleGo f (s.drop annotPatA.length)
    else if headMatch annotPatB s then annotRuleGo f (s.drop annotPatB.length)
    else c :: annotRuleGo f t

/-- The annotation-token removal of `processJavaFile`. -/
def annotRule (s : Str) : Str := annotRuleGo s.length s

/-- Global literal replace (`String.prototype.replace` with a literal
global regex such as `/com\.yourusername/g`). -/
def litReplGo (pat rep : Str) : Nat → Str → Str
  | 0, s => s
  | _ + 1, [] => []
  | f + 1, s@(c :: t) =>
    if headMatch pat s && !pat.isEmpty then
      rep ++ litReplGo pat rep f (s.drop pat.length)
    else c :: litReplGo pat rep f t

/-- Global literal replacement of `pat` by `rep` in `s`. -/
def litRepl (pat rep s : Str) : Str := litReplGo pat rep s.length s

/-- The import line injected when a substituted call needs
`FixedMetadataValue`. -/
def importInj : Str := lit "import org.bukkit.metadata.FixedMetadataValue;\n"

/-- Match `/(import .+;\n\n)/` at the current position: the literal
`"import "`, then at least one non-newline character ending in `;`
immediately followed by two newlines; returns the matched string. -/
def importMatchAt (s : Str) : Option Str :=
  if headMatch (lit "import ") s then
    (fun line =>
      if 2 ≤ line.length then
        if line.getLast? == some ';' then
          if headMatch (lit "\n\n") (s.drop (7 + line.length)) then
            some (lit "import " ++ line ++ lit "\n\n")
          else none
        else none
      else none)
    ((s.drop 7).takeWhile (fun c => c != '\n'))
  else none

/-- `result.replace(importSection[0], importSection[0] + importInj)`:
the first regex match of `/(import .+;\n\n)/` is located and the import
line spliced in after it (string replace of the first occurrence of the
matched text, which coincides with the first match site). -/
def injectImportGo : Nat → Str → Str
  | 0, s => s
  | _ + 1, [] => []
  | f + 1, s@(c :: t) =>
    match importMatchAt s with
    | some m => m ++ importInj ++ s.drop m.length
    | none => c :: injectImportGo f t

/-- The conditional `FixedMetadataValue` import injection of
`processJavaFile`. -/
def injectImport (s : Str) : Str := injectImportGo s.length s

/-- The path marker of `/src\/main\/java\/(.*\/)/`. -/
def srcMarker : Str := lit "src/main/java/"

/-- Match `/src\/main\/java\/(.*\/)/` at the current position: the greedy
group captures up to the last `/` on the same line; no `/` after the
marker means no match here. -/
def pkgGroupAt (s : Str) : Option Str :=
  if headMatch srcMarker s then
    (fun line =>
      (fun afterSlash =>
        if afterSlash.isEmpty then none else some afterSlash.reverse)
      (line.reverse.dropWhile (fun c => c != '/')))
    ((s.drop srcMarker.length).takeWhile (fun c => c != '\n'))
  else none

/-- Leftmost match of the package-group pattern in the file path. -/
def pkgScanGo : Nat → Str → Option Str
  | 0, _ => none
  | _ + 1, [] => none
  | f + 1, s@(_ :: t) =>
    match pkgGroupAt s with
    | some g => some g
    | none => pkgScanGo f t

/-- The package name `processJavaFile` derives from the file path:
the captured group with `/` replaced by `.` and a single trailing `.`
stripped; empty when the path does not match. -/
def packageNameOf (filePath : Str) : Str :=
  match pkgScanGo filePath.length filePath with
  | some g =>
    (fun dotted =>
      match dotted.getLast? with
      | some '.' => dotted.dropLast
      | _ => dotted)
    (g.map (fun c => if c == '/' then '.' else c))
  | none => []

/-- The `package ...;` declaration `processJavaFile` prepends when the
path yields a package and the content does not already start with one. -/
def pkgDecl (filePath : Str) : Str :=
  if packageNameOf filePath == [] then []
  else lit "package " ++ packageNameOf filePath ++ lit ";\n\n"

/-- The chained replaces of `processJavaFile` (`apiRoutes.ts:234-244`), in
source order: the `pig.setAngry` rewrite, JetBrains import removal,
annotation-token removal, and the three namespace replacements using the
lower-cased plugin name. -/
def javaReplaces (pluginName content : Str) : Str :=
  litRepl (lit "yourusername") (lit "pegasus")
    (litRepl (lit "com.pegasus.plugin") (lit "com.pegasus." ++ lowerStr pluginName)
      (litRepl (lit "com.yourusername") (lit "com.pegasus." ++ lowerStr pluginName)
        (annotRule (jetRule (pigRule content)))))

/-- `processJavaFile` after the conditional metadata-import injection
(`apiRoutes.ts:247-252`). -/
def javaWithImport (pluginName content : Str) : Str :=
  if hasSub (lit "setMetadata") (javaReplaces pluginName content) &&
      !hasSub (lit "import org.bukkit.metadata.FixedMetadataValue")
        (javaReplaces pluginName content) then
    injectImport (javaReplaces pluginName content)
  else javaReplaces pluginName content

/-- `processJavaFile` (`apiRoutes.ts:228-260`): the replaces, the
conditional import injection, and the conditional package-declaration
prepend (`if (packageName && !result.trim().startsWith("package"))`). -/
def processJavaFile (filePath content pluginName : Str) : Str :=
  if !(packageNameOf filePath == []) &&
      !headMatch (lit "package") (trimStr (javaWithImport pluginName content)) then
    lit "package " ++ packageNameOf filePath ++ lit ";\n\n" ++
      javaWithImport pluginName content
  else javaWithImport pluginName content

/-- Absence of every token `processJavaFile` rewrites or tests: on such
content each replace pass is the identity. -/
def cleanTriggers (s : Str) : Bool :=
  !hasSub pigPat s && !hasSub jetPat s &&
  !hasSub annotPatA s && !hasSub annotPatB s &&
  !hasSub (lit "com.yourusername") s && !hasSub (lit "com.pegasus.plugin") s &&
  !hasSub (lit "yourusername") s && !hasSub (lit "setMetadata") s

/-- A well-formed delimited block as a text: start marker, path, the
closing dashes, content, end marker. -/
def renderBlock (p c : Str) : Str :=
  mStart ++ (p ++ (dash3 ++ (c ++ mEnd)))

/-- A document text: junk before each block, then a final junk tail. -/
def assembleDoc : List (Str × Str × Str) → Str → Str
  | [], jEnd => jEnd
  | (j, p, c) :: rest, jEnd => j ++ (renderBlock p c ++ assembleDoc rest jEnd)

/-- Side condition making a path group well formed for `FILE_PATTERN`:
no newline (the lazy `.` group cannot cross lines) and no occurrence of
`---` even one formed together with the closing dashes. -/
def pathOk (p : Str) : Bool :=
  p.all (fun ch => ch != '\n') && !hasSub dash3 (p ++ dash3.take 2)

/-- Side condition making a content group well formed: no occurrence of
the end marker, even one formed together with the closing marker. -/
def contentOk (c : Str) : Bool := !hasSub mEnd (c ++ mEnd.take 13)

/-- Side condition on junk between blocks: no occurrence of the start
marker, even one formed together with the following block. -/
def junkOk (j : Str) : Bool := !hasSub mStart (j ++ mStart.take 13)

/-- Well-formedness of one junk-block item. -/
def itemOk (it : Str × Str × Str) : Bool :=
  junkOk it.1 && pathOk it.2.1 && contentOk it.2.2

/-- The entry the extraction loop produces for a block: trimmed path,
trimmed and fence-stripped content. -/
def entryOf (it : Str × Str × Str) : Str × Str :=
  (trimStr it.2.1, cleanContent (trimStr it.2.2))

/- ===================== theorems ===================== -/

theorem splitSp_ne_nil : ∀ s : Str, splitSp s ≠ [] := by
  intro s
  cases s with
  | nil => simp [splitSp]
  | cons c t =>
    simp only [splitSp]
    cases hsp : splitSp t with
    | nil => simp
    | cons w ws =>
      by_cases hc : c == ' ' <;> simp [hc]

theorem splitSp_word (w : Str) (r : Str) (hw : ∀ c ∈ w, ¬(c = ' ')) :
    splitSp (w ++ ' ' :: r) = w :: splitSp r := by
  induction w with
  | nil =>
    simp only [List.nil_append, splitSp]
    cases hsp : splitSp r with
    | nil => exact absurd hsp (splitSp_ne_nil r)
    | cons x xs => simp
  | cons c t ih =>
    have hc : ¬(c = ' ') := hw c (by simp)
    have ht : ∀ x ∈ t, ¬(x = ' ') := fun x hx => hw x (by simp [hx])
    simp only [List.cons_append, splitSp]
    rw [show t.append (' ' :: r) = t ++ ' ' :: r from rfl, ih ht]
    simp [hc]

theorem splitSp_headD (s : Str) :
    (splitSp s).getD 0 [] = s.takeWhile (fun c => c != ' ') := by
  induction s with
  | nil => simp [splitSp, List.takeWhile]
  | cons c t ih =>
    simp only [splitSp]
    cases hsp : splitSp t with
    | nil => exact absurd hsp (splitSp_ne_nil t)
    | cons w ws =>
      rw [hsp] at ih
      simp only [List.getD_cons_zero] at ih
      by_cases hc : c = ' '
      · subst hc
        simp [List.takeWhile_cons]
      · have hcb : (c == ' ') = false := by simp [hc]
        have hne : (c != ' ') = true := by simp [hc]
        simp [hcb, List.takeWhile_cons, hne, ih]

theorem headMatch_iff_append (p : Str) : ∀ s : Str,
    headMatch p s = true ↔ ∃ r, s = p ++ r := by
  induction p with
  | nil => intro s; simp [headMatch]
  | cons a p ih =>
    intro s
    cases s with
    | nil =>
      simp [headMatch]
    | cons b t =>
      simp only [headMatch, Bool.and_eq_true, beq_iff_eq, ih t, List.cons_append]
      constructor
      · rintro ⟨rfl, r, rfl⟩; exact ⟨r, rfl⟩
      · rintro ⟨r, hr⟩
        injection hr with h1 h2
        exact ⟨h1.symm, r, h2⟩

theorem bearer_token_eq (h : Str) (hb : headMatch bearerSp h = true) :
    (splitSp h).getD 1 [] = (h.drop 7).takeWhile (fun c => c != ' ') := by
  obtain ⟨r, rfl⟩ := (headMatch_iff_append bearerSp h).mp hb
  have hword : ∀ c ∈ lit "Bearer", ¬(c = ' ') := by decide
  have hsplit : bearerSp ++ r = lit "Bearer" ++ ' ' :: r := rfl
  have hdrop : (bearerSp ++ r).drop 7 = r := by
    have : bearerSp.length = 7 := rfl
    rw [← this, List.drop_left]
  rw [hdrop, hsplit, splitSp_word (lit "Bearer") r hword]
  simp only [List.getD, List.get?_cons_succ, List.get?_cons_zero]
  have := splitSp_headD r
  simpa [List.getD] using this

/-- C10 counterexample: with secret "s", the header "Bearer s x" is
admitted by `verifyToken` although it is not exactly `"Bearer "` followed
by the secret, refuting the claimed exact-match characterisation. -/
theorem c10_counterexample :
    verifyToken (some (lit "Bearer s x")) (some (lit "s")) = AuthOutcome.ok ∧
    lit "Bearer s x" ≠ bearerSp ++ lit "s" := by
  decide

/-- C10 (amended): the middleware admits a request iff the Authorization
header starts with "Bearer " and the first space-delimited word after that
scheme equals the configured secret, the secret being set and non-empty;
trailing space-separated content after the token is ignored.  In every
other case (missing header, wrong scheme, mismatched token, unset or empty
secret) it rejects with 401 and the handler is never invoked. -/
theorem c10_auth_characterisation :
    (∀ t, verifyToken none t = AuthOutcome.reject401) ∧
    (∀ h, verifyToken (some h) none = AuthOutcome.reject401) ∧
    (∀ h, verifyToken (some h) (some []) = AuthOutcome.reject401) ∧
    (∀ h t, verifyToken (some h) (some t) = AuthOutcome.ok ↔
      (headMatch bearerSp h = true ∧ t ≠ [] ∧
       (h.drop 7).takeWhile (fun c => c != ' ') = t)) := by
  refine ⟨fun t => rfl, fun h => ?_, fun h => ?_, fun h t => ?_⟩
  · simp only [verifyToken]
    by_cases hb : headMatch bearerSp h <;> simp [hb]
  · simp only [verifyToken]
    by_cases hb : headMatch bearerSp h <;> simp [hb]
  · simp only [verifyToken]
    by_cases hb : headMatch bearerSp h
    · rw [bearer_token_eq h hb]
      by_cases ht : t = []
      · subst ht; simp [hb]
      · have ht' : (t == []) = false := by simp [ht]
        by_cases htok : (h.drop 7).takeWhile (fun c => c != ' ') = t
        · simp [hb, ht', htok, ht]
        · have : ((h.drop 7).takeWhile (fun c => c != ' ') == t) = false := by
            simp [htok]
          simp [hb, ht', this, htok]
    · simp [hb]

/-- C9: model selection for a fix request is a pure function of error-text
length and file count; the expensive pro tier is chosen iff the error text
is longer than 500 or there are more than 5 files (exclusive thresholds),
and the fix always uses the chosen tier's low-temperature (0.1) precision
profile. -/
theorem c9_model_selection (err : Str) (files : FileTree) :
    ((fixModelChoice err files).1 = Tier.pro ↔
      (500 < err.length ∨ 5 < files.length)) ∧
    (fixModelChoice err files).2 = Profile.precision ∧
    tempTenths (fixModelChoice err files).1 Profile.precision = 1 := by
  refine ⟨?_, rfl, ?_⟩
  · simp only [fixModelChoice, isComplexError]
    by_cases h1 : 500 < err.length <;> by_cases h2 : 5 < files.length <;>
      simp [h1, h2]
  · simp only [fixModelChoice]
    by_cases hc : isComplexError err files <;> simp [hc, tempTenths]

theorem goLoop_alwaysFail (n : Nat) : ∀ (i : Nat) (inv : List Mvn) (fixes : Nat),
    goLoop alwaysFail false i n inv fixes =
      degradedStep false (inv ++ errPkgChunks n) (fixes + n) := by
  induction n with
  | zero => intro i inv fixes; simp [goLoop, errPkgChunks]
  | succ n ih =>
    intro i inv fixes
    simp only [goLoop, alwaysFail, if_neg (by simp : ¬(false = true))]
    rw [ih]
    simp only [errPkgChunks]
    have harr : (inv ++ [Mvn.errOnly, Mvn.pkg]) ++ errPkgChunks n =
        inv ++ (Mvn.errOnly :: Mvn.pkg :: errPkgChunks n) := by
      simp [List.append_assoc]
    rw [harr]
    have : fixes + 1 + n = fixes + (n + 1) := by omega
    rw [this]

theorem errPkgChunks_length (n : Nat) : (errPkgChunks n).length = 2 * n := by
  induction n with
  | zero => rfl
  | succ n ih => simp [errPkgChunks, ih]; omega

theorem errPkgChunks_pkgCount (n : Nat) : pkgCount (errPkgChunks n) = n := by
  induction n with
  | zero => rfl
  | succ n ih =>
    have hstep : pkgCount (errPkgChunks (n + 1)) = pkgCount (errPkgChunks n) + 1 := by
      simp only [errPkgChunks, pkgCount, List.filter_cons]
      simp only [show (Mvn.errOnly == Mvn.pkg) = false from rfl,
        show (Mvn.pkg == Mvn.pkg) = true from rfl]
      simp
    rw [hstep, ih]

/-- C1 counterexample: with the default maximum of 5 and an always-failing
compiler, `bash.sh` performs 12 Maven invocations — not `maximum + 2 = 7`
as claimed — because every fix attempt first runs an errors-only
`mvn clean compile -e` before its `mvn clean package`; it does perform
exactly 5 fix attempts, one degraded attempt, and reports success:false. -/
theorem c1_counterexample :
    (bashBuild alwaysFail false 5).invocations.length = 12 ∧
    (bashBuild alwaysFail false 5).fixCalls = 5 ∧
    (bashBuild alwaysFail false 5).degradedRuns = 1 ∧
    (bashBuild alwaysFail false 5).success = false ∧
    (bashBuild alwaysFail false 5).invocations.length ≠ 5 + 2 := by
  decide

/-- C1 (amended): against an always-failing compiler the orchestrator
performs exactly `maximum` fix attempts, then exactly one degraded
(shade-skipping) attempt, then reports success:false; the total number of
Maven invocations is `2·maximum + 2` (each fix attempt adds an errors-only
transcript compile), while the package-building invocations alone number
`maximum + 2` (one initial, one per retry, one degraded). -/
theorem c1_orchestrator_termination (maxA : Nat) :
    (bashBuild alwaysFail false maxA).invocations.length = 2 * maxA + 2 ∧
    pkgCount ((bashBuild alwaysFail false maxA).invocations) +
      (bashBuild alwaysFail false maxA).degradedRuns = maxA + 2 ∧
    (bashBuild alwaysFail false maxA).fixCalls = maxA ∧
    (bashBuild alwaysFail false maxA).degradedRuns = 1 ∧
    (bashBuild alwaysFail false maxA).success = false := by
  have hrun : bashBuild alwaysFail false maxA =
      degradedStep false ([Mvn.pkg] ++ errPkgChunks maxA) maxA := by
    simp only [bashBuild, alwaysFail, if_neg (by simp : ¬(false = true))]
    rw [goLoop_alwaysFail]
    simp
  rw [hrun]
  refine ⟨?_, ?_, rfl, rfl, rfl⟩
  · show (([Mvn.pkg] ++ errPkgChunks maxA) ++ [Mvn.degraded]).length = 2 * maxA + 2
    simp only [List.length_append, errPkgChunks_length, List.length_cons,
      List.length_nil]
    omega
  · show pkgCount (([Mvn.pkg] ++ errPkgChunks maxA) ++ [Mvn.degraded]) + 1 = maxA + 2
    have h1 : pkgCount (([Mvn.pkg] ++ errPkgChunks maxA) ++ [Mvn.degraded]) =
        pkgCount [Mvn.pkg] + pkgCount (errPkgChunks maxA) + pkgCount [Mvn.degraded] := by
      simp only [pkgCount, List.filter_append, List.length_append]
    rw [h1, errPkgChunks_pkgCount]
    have h2 : pkgCount [Mvn.pkg] = 1 := rfl
    have h3 : pkgCount [Mvn.degraded] = 0 := rfl
    omega

/-- C2: the async branch answers HTTP 202 immediately with buildId,
status "pending" and a statusCheckUrl — but the spawned background task
performs none of the pipeline steps the synchronous path would run: its
body is an empty placeholder that only logs, so the plugin-generation
pipeline is never executed for that buildId. -/
theorem c2_async_background_is_empty (bid : Str) (fileCount : Nat)
    (compileRequested : Bool) :
    (createAsyncResponse bid).httpStatus = 202 ∧
    (createAsyncResponse bid).success = true ∧
    (createAsyncResponse bid).statusField = lit "pending" ∧
    (createAsyncResponse bid).buildId = bid ∧
    (createAsyncResponse bid).statusCheckUrl = lit "/api/build/status/" ++ bid ∧
    createAsyncBackground bid = [] ∧
    createSyncPipeline fileCount compileRequested ≠ [] := by
  refine ⟨rfl, rfl, rfl, rfl, rfl, rfl, ?_⟩
  simp [createSyncPipeline]

/-- C3 counterexample: when compilation has failed (after all repair
strategies inside `bash.sh` were exhausted), the create route's response
carries `success: true` — not `success: false` as claimed — though it is
indeed HTTP 200 with the generated files attached. -/
theorem c3_counterexample :
    (createCompileResponse [(lit "pom.xml", lit "<project/>")]
        { success := false, jarPath := none,
          buildOutput := lit "BUILD FAILURE", buildId := lit "plugin-1" }).success
      = true ∧
    (createCompileResponse [(lit "pom.xml", lit "<project/>")]
        { success := false, jarPath := none,
          buildOutput := lit "BUILD FAILURE", buildId := lit "plugin-1" }).httpStatus
      = 200 := by
  decide

/-- C3 (amended): every modelled response of the create and fix routes is
an envelope with a boolean success flag; when compilation fails after all
repair strategies are exhausted the create route still answers HTTP 200
with the best-effort files, but with `success: true` and the message
"Plugin generated but compilation failed" — the failure is signalled by
the message (and missing jar), not by the success flag. -/
theorem c3_envelope (validated : FileTree) (cr : CompileResultM)
    (h : cr.success = false) :
    (createCompileResponse validated cr).httpStatus = 200 ∧
    (createCompileResponse validated cr).data = validated ∧
    (createCompileResponse validated cr).files = validated.map (fun e => e.1) ∧
    (createCompileResponse validated cr).success = true ∧
    (createCompileResponse validated cr).message =
      lit "Plugin generated but compilation failed" ∧
    fixValidationErrorResponse.success = false ∧
    fixValidationErrorResponse.httpStatus = 400 ∧
    fixInternalErrorResponse.success = false ∧
    fixInternalErrorResponse.httpStatus = 500 ∧
    (∀ u : FileTree, (fixFreshResponse u).success = true) := by
  refine ⟨rfl, rfl, rfl, rfl, ?_, rfl, rfl, rfl, rfl, fun u => rfl⟩
  simp [createCompileResponse, h]

theorem c3_envelope_witness :
    (createCompileResponse [(lit "A.java", lit "class A")]
        { success := false, jarPath := none, buildOutput := [],
          buildId := lit "plugin-2" }).success = true := by
  have h := c3_envelope [(lit "A.java", lit "class A")]
    { success := false, jarPath := none, buildOutput := [],
      buildId := lit "plugin-2" } rfl
  exact h.2.2.2.1

/-- C4 counterexample: on the very same input, the fix route's cache-hit
response and its fresh-run response differ in more than the "(cached)"
message — the fresh response carries a `changedFiles` field that the
cached response lacks — so a hit is not observably equivalent to
re-running the pipeline. -/
theorem c4_counterexample :
    ¬ eqUpToMessage (fixCachedResponse [(lit "pom.xml", lit "<project/>")])
        (fixFreshResponse [(lit "pom.xml", lit "<project/>")]) := by
  intro h
  exact absurd h.2.2.2.2 (by decide)

/-- C4 (amended): a cache hit returns the cached FileTree directly with
zero model calls, HTTP 200 and `success: true`; but the hit envelope omits
the `changedFiles` field that every fresh fix response includes, so a hit
is equivalent to a fresh run only in status, success flag and file data,
not in the full field set. -/
theorem c4_cache_hit (cached : FileTree) :
    (fixHandler (some cached) []).2 = 0 ∧
    (fixHandler (some cached) []).1.data = cached ∧
    (fixHandler (some cached) []).1.success = true ∧
    (fixHandler (some cached) []).1.httpStatus = 200 ∧
    (fixHandler (some cached) []).1.changedFiles = none ∧
    (∀ updated : FileTree, (fixHandler none updated).2 = 1 ∧
      (fixHandler none updated).1.changedFiles = some updated.length) := by
  exact ⟨rfl, rfl, rfl, rfl, rfl, fun updated => ⟨rfl, rfl⟩⟩

/-- C6 counterexample: the extractor does not return the block content
merely whitespace-trimmed — the loop also strips markdown code fences via
`cleanContent`, so a well-formed block whose content is
"\n```java\nx\n```\n" yields the entry content "x\n" (which even retains
trailing whitespace), not the trimmed block content. -/
theorem c6_counterexample :
    extractFiles
        (lit "---FILE_START:a.txt---\n```java\nx\n```\n---FILE_END---") =
      [(lit "a.txt", lit "x\n")] ∧
    lit "x\n" ≠ trimStr (lit "\n```java\nx\n```\n") := by
  decide

set_option maxRecDepth 4096 in
/-- C5 counterexample: two fix requests with identical error text and the
same file set presented in different key orders derive different cache
keys, because the key hashes the paths in insertion order, unsorted. -/
theorem c5_counterexample :
    fixCacheKey (lit "err") [(lit "b.java", lit "x"), (lit "a.java", lit "y")] ≠
      fixCacheKey (lit "err") [(lit "a.java", lit "y"), (lit "b.java", lit "x")] := by
  decide

/-- C5 (amended): the fix-route cache key is the MD5 hash of the error
text concatenated with the request's file paths joined by commas in the
order they are presented (not sorted); it is deterministic in the error
text and the ordered path list and independent of the file contents. -/
theorem c5_cache_key_deterministic (e : Str) (t1 t2 : FileTree)
    (h : t1.map (fun x => x.1) = t2.map (fun x => x.1)) :
    fixCacheKey e t1 = fixCacheKey e t2 := by
  unfold fixCacheKey
  rw [h]

theorem c5_cache_key_deterministic_witness :
    fixCacheKey (lit "err") [(lit "a.java", lit "content1")] =
      fixCacheKey (lit "err") [(lit "a.java", lit "other content")] :=
  c5_cache_key_deterministic (lit "err")
    [(lit "a.java", lit "content1")] [(lit "a.java", lit "other content")]
    (by decide)

theorem headMatch_map (f : Char → Char) :
    ∀ p s : Str, headMatch p s = true → headMatch (p.map f) (s.map f) = true := by
  intro p
  induction p with
  | nil => intro s _; rfl
  | cons a p ih =>
    intro s h
    cases s with
    | nil => exact absurd h (by simp [headMatch])
    | cons b t =>
      simp only [headMatch, Bool.and_eq_true, beq_iff_eq] at h
      simp only [List.map_cons, headMatch, Bool.and_eq_true, beq_iff_eq]
      exact ⟨congrArg f h.1, ih t h.2⟩

theorem hasSub_map (f : Char → Char) :
    ∀ p s : Str, hasSub p s = true → hasSub (p.map f) (s.map f) = true := by
  intro p s
  induction s with
  | nil =>
    intro h
    cases p with
    | nil => rfl
    | cons a q => exact absurd h (by simp [hasSub, headMatch])
  | cons c t ih =>
    intro h
    simp only [hasSub, Bool.or_eq_true] at h
    simp only [List.map_cons, hasSub, Bool.or_eq_true]
    rcases h with h | h
    · exact Or.inl (headMatch_map f p (c :: t) h)
    · exact Or.inr (ih h)

theorem errMentions_eq (err name : Str) :
    errMentions err name = mentionsCI err name := by
  unfold errMentions mentionsCI lowerStr
  cases h : hasSub name err with
  | false => simp [h]
  | true => simp [h, hasSub_map Char.toLower name err h]

theorem codeBase_mem {e : Str} {fs : FileTree} {x : Str × Str}
    (hx : x ∈ codeBase e fs) : x ∈ fs := by
  unfold codeBase at hx
  split at hx
  · exact hx
  · exact List.mem_of_mem_filter hx

theorem setFile_mem {t : FileTree} {p v : Str} {x : Str × Str}
    (hx : x ∈ setFile t p v) : x ∈ t ∨ x = (p, v) := by
  unfold setFile at hx
  by_cases h : t.any (fun e => e.1 == p)
  · simp only [h, if_true] at hx
    obtain ⟨y, hy, hxy⟩ := List.mem_map.mp hx
    by_cases hyp : (y.1 == p) = true
    · right
      rw [← hxy]
      simp [hyp]
    · left
      rw [← hxy]
      simpa [hyp] using hy
  · simp only [h, Bool.false_eq_true, if_false] at hx
    rcases List.mem_append.mp hx with h1 | h1
    · exact Or.inl h1
    · right; simpa using h1

theorem setFile_ne_nil (t : FileTree) (p v : Str) : setFile t p v ≠ [] := by
  unfold setFile
  by_cases h : t.any (fun e => e.1 == p)
  · simp only [h, if_true]
    cases t with
    | nil => simp [List.any_nil] at h
    | cons y ys => simp
  · simp [h]

theorem lookupTree_map_overwrite (p v : Str) : ∀ t : FileTree,
    t.any (fun e => e.1 == p) = true →
    lookupTree (t.map (fun e => if e.1 == p then (p, v) else e)) p = some v := by
  intro t
  induction t with
  | nil => intro h; simp [List.any_nil] at h
  | cons y ys ih =>
    intro h
    by_cases hy : (y.1 == p) = true
    · simp only [List.map_cons, hy, if_true, lookupTree, List.find?]
      simp
    · have h' : ys.any (fun e => e.1 == p) = true := by
        simpa [List.any_cons, hy] using h
      have := ih h'
      simp only [List.map_cons, hy, Bool.false_eq_true, if_false, lookupTree,
        List.find?] at this ⊢
      simpa [hy] using this

theorem lookupTree_append_new (p v : Str) : ∀ t : FileTree,
    t.any (fun e => e.1 == p) = false →
    lookupTree (t ++ [(p, v)]) p = some v := by
  intro t
  induction t with
  | nil => simp [lookupTree, List.find?]
  | cons y ys ih =>
    intro h
    have hy : (y.1 == p) = false := by
      by_cases hyp : (y.1 == p) = true
      · simp [List.any_cons, hyp] at h
      · simpa using hyp
    have h' : ys.any (fun e => e.1 == p) = false := by
      simpa [List.any_cons, hy] using h
    have := ih h'
    simp only [List.cons_append, lookupTree, List.find?] at this ⊢
    simpa [hy] using this

theorem relevant_mem {e : Str} {fs : FileTree} {x : Str × Str}
    (hx : x ∈ relevantFiles e fs) :
    x ∈ fs ∨ ∃ v, lookupTree fs pomKey = some v ∧ x = (pomKey, v) := by
  unfold relevantFiles at hx
  cases hpom : lookupTree fs pomKey with
  | none =>
    rw [hpom] at hx
    dsimp only at hx
    exact Or.inl (codeBase_mem hx)
  | some v =>
    rw [hpom] at hx
    dsimp only at hx
    by_cases hc : (v != [] && !truthyAt (codeBase e fs) pomKey) = true
    · rw [if_pos hc] at hx
      rcases setFile_mem hx with h | h
      · exact Or.inl (codeBase_mem h)
      · exact Or.inr ⟨v, rfl, h⟩
    · rw [if_neg hc] at hx
      exact Or.inl (codeBase_mem hx)

theorem lookupTree_setFile_self (t : FileTree) (p v : Str) :
    lookupTree (setFile t p v) p = some v := by
  unfold setFile
  by_cases h : t.any (fun e => e.1 == p)
  · simp only [h, if_true]
    exact lookupTree_map_overwrite p v t h
  · have h' : t.any (fun e => e.1 == p) = false := Bool.eq_false_iff.mpr h
    simp only [h, Bool.false_eq_true, if_false]
    exact lookupTree_append_new p v t h'

theorem codeMentioned_eq_spec (e : Str) (fs : FileTree) :
    codeMentioned e fs = specMentioned e fs := by
  unfold codeMentioned specMentioned
  congr 1
  funext x
  exact errMentions_eq e (fileNameOf x.1)

theorem codeBase_eq_spec (e : Str) (fs : FileTree) :
    codeBase e fs = specBase e fs := by
  unfold codeBase specBase
  rw [codeMentioned_eq_spec]

theorem codeBase_ne {e : Str} {fs : FileTree} (hne : fs ≠ []) :
    codeBase e fs ≠ [] := by
  unfold codeBase
  split
  · exact hne
  · next h =>
    intro h0
    exact h (by rw [h0]; rfl)

/-- C8 counterexample: a tree holding `pom.xml` (with empty content, which
is falsy in JavaScript) and `Main.java`, with an error mentioning only
`Main.java`: the filter's output omits `pom.xml` although it is present in
the input tree, refuting the unconditional force-include. -/
theorem c8_counterexample :
    lookupTree [(lit "Main.java", lit "x"), (lit "pom.xml", [])] pomKey
      = some [] ∧
    lookupTree (relevantFiles (lit "error in Main.java")
        [(lit "Main.java", lit "x"), (lit "pom.xml", [])]) pomKey = none := by
  decide

/-- C8 (amended): the filter returns the subset of files whose file name
occurs case-insensitively in the error text (it equals the spec-side
filter), falls back to the entire tree when that subset is empty, always
force-includes `pom.xml` when it is present with non-empty content (an
empty `pom.xml` is skipped by the JavaScript truthiness check), never
returns an empty set for a non-empty input, and never contains a path
absent from the input tree. -/
theorem c8_relevance_filter (e : Str) (fs : FileTree) (hne : fs ≠ []) :
    relevantFiles e fs = specRelevant e fs ∧
    ((relevantFiles e fs).all (fun en => fs.any (fun x => x.1 == en.1))) = true ∧
    relevantFiles e fs ≠ [] ∧
    ((specMentioned e fs).isEmpty = true → relevantFiles e fs = fs) ∧
    pomIncluded e fs = true := by
  refine ⟨?_, ?_, ?_, ?_, ?_⟩
  · unfold relevantFiles specRelevant
    rw [codeBase_eq_spec]
  · rw [List.all_eq_true]
    intro en hen
    rcases relevant_mem hen with h | ⟨v, hv, rfl⟩
    · simp only [List.any_eq_true]
      exact ⟨en, h, by simp⟩
    · unfold lookupTree at hv
      obtain ⟨el, hel, helv⟩ := Option.map_eq_some'.mp hv
      have hmem := List.mem_of_find?_eq_some hel
      have hpred := List.find?_some hel
      simp only [List.any_eq_true]
      exact ⟨el, hmem, by simpa using hpred⟩
  · unfold relevantFiles
    cases hpom : lookupTree fs pomKey with
    | none => exact codeBase_ne hne
    | some v =>
      dsimp only
      by_cases hc : (v != [] && !truthyAt (codeBase e fs) pomKey) = true
      · rw [if_pos hc]
        exact setFile_ne_nil _ _ _
      · rw [if_neg hc]
        exact codeBase_ne hne
  · intro hempty
    have hcm : (codeMentioned e fs).isEmpty = true := by
      rw [codeMentioned_eq_spec]; exact hempty
    have hbase : codeBase e fs = fs := by
      unfold codeBase; rw [if_pos hcm]
    unfold relevantFiles
    cases hpom : lookupTree fs pomKey with
    | none => exact hbase
    | some v =>
      dsimp only
      rw [hbase]
      have htr : truthyAt fs pomKey = (v != []) := by
        unfold truthyAt; rw [hpom]
      rw [htr]
      simp
  · unfold pomIncluded
    cases hpom : lookupTree fs pomKey with
    | none => rfl
    | some v =>
      dsimp only
      by_cases hv : (v == []) = true
      · rw [if_pos hv]
      · rw [if_neg hv]
        have hvne : (v != []) = true := by
          have hv' : (v == []) = false := Bool.eq_false_iff.mpr hv
          simp [bne, hv']
        unfold relevantFiles
        rw [hpom]
        dsimp only
        by_cases htr : truthyAt (codeBase e fs) pomKey = true
        · have hcf : (v != [] && !truthyAt (codeBase e fs) pomKey) = false := by
            rw [htr]; simp
          rw [hcf]
          simp only [Bool.false_eq_true, if_false]
          exact htr
        · have htr' : truthyAt (codeBase e fs) pomKey = false :=
            Bool.eq_false_iff.mpr htr
          have hcond : (v != [] && !truthyAt (codeBase e fs) pomKey) = true := by
            rw [htr', hvne]; rfl
          rw [if_pos hcond]
          unfold truthyAt
          rw [lookupTree_setFile_self]
          exact hvne

theorem c8_relevance_filter_witness :
    relevantFiles (lit "error in Main.java")
        [(lit "Main.java", lit "x"), (lit "pom.xml", lit "<p/>")] =
      specRelevant (lit "error in Main.java")
        [(lit "Main.java", lit "x"), (lit "pom.xml", lit "<p/>")] :=
  (c8_relevance_filter (lit "error in Main.java")
    [(lit "Main.java", lit "x"), (lit "pom.xml", lit "<p/>")] (by decide)).1

theorem hasSub_cons_false {pat : Str} {c : Char} {t : Str}
    (h : hasSub pat (c :: t) = false) :
    headMatch pat (c :: t) = false ∧ hasSub pat t = false := by
  simp only [hasSub, Bool.or_eq_false_iff] at h
  exact h

theorem pigRuleGo_id : ∀ (f : Nat) (s : Str), hasSub pigPat s = false →
    pigRuleGo f s = s := by
  intro f
  induction f with
  | zero => intro s _; rfl
  | succ f ih =>
    intro s h
    cases s with
    | nil => rfl
    | cons c t =>
      obtain ⟨h1, h2⟩ := hasSub_cons_false h
      have hm : pigMatchAt (c :: t) = none := by
        unfold pigMatchAt
        rw [h1]
        rfl
      simp only [pigRuleGo, hm]
      rw [ih t h2]

theorem jetRuleGo_id : ∀ (f : Nat) (s : Str), hasSub jetPat s = false →
    jetRuleGo f s = s := by
  intro f
  induction f with
  | zero => intro s _; rfl
  | succ f ih =>
    intro s h
    cases s with
    | nil => rfl
    | cons c t =>
      obtain ⟨h1, h2⟩ := hasSub_cons_false h
      have hm : jetMatchAt (c :: t) = none := by
        unfold jetMatchAt
        rw [h1]
        rfl
      simp only [jetRuleGo, hm]
      rw [ih t h2]

theorem annotRuleGo_id : ∀ (f : Nat) (s : Str), hasSub annotPatA s = false →
    hasSub annotPatB s = false → annotRuleGo f s = s := by
  intro f
  induction f with
  | zero => intro s _ _; rfl
  | succ f ih =>
    intro s ha hb
    cases s with
    | nil => rfl
    | cons c t =>
      obtain ⟨ha1, ha2⟩ := hasSub_cons_false ha
      obtain ⟨hb1, hb2⟩ := hasSub_cons_false hb
      simp only [annotRuleGo, ha1, hb1, Bool.false_eq_true, if_false]
      rw [ih t ha2 hb2]

theorem litReplGo_id (pat rep : Str) : ∀ (f : Nat) (s : Str),
    hasSub pat s = false → litReplGo pat rep f s = s := by
  intro f
  induction f with
  | zero => intro s _; rfl
  | succ f ih =>
    intro s h
    cases s with
    | nil => rfl
    | cons c t =>
      obtain ⟨h1, h2⟩ := hasSub_cons_false h
      simp only [litReplGo, h1, Bool.false_and, Bool.false_eq_true, if_false]
      rw [ih t h2]

theorem cleanTriggers_parts {s : Str} (h : cleanTriggers s = true) :
    hasSub pigPat s = false ∧ hasSub jetPat s = false ∧
    hasSub annotPatA s = false ∧ hasSub annotPatB s = false ∧
    hasSub (lit "com.yourusername") s = false ∧
    hasSub (lit "com.pegasus.plugin") s = false ∧
    hasSub (lit "yourusername") s = false ∧
    hasSub (lit "setMetadata") s = false := by
  simp only [cleanTriggers, Bool.and_eq_true, Bool.not_eq_true'] at h
  tauto

theorem javaReplaces_id (n s : Str) (h : cleanTriggers s = true) :
    javaReplaces n s = s := by
  obtain ⟨hp, hj, ha, hb, h4, h5, h6, _⟩ := cleanTriggers_parts h
  unfold javaReplaces pigRule jetRule annotRule litRepl
  rw [pigRuleGo_id _ s hp, jetRuleGo_id _ s hj, annotRuleGo_id _ s ha hb,
    litReplGo_id _ _ _ s h4, litReplGo_id _ _ _ s h5, litReplGo_id _ _ _ s h6]

theorem javaWithImport_id (n s : Str) (h : cleanTriggers s = true) :
    javaWithImport n s = s := by
  have hr := javaReplaces_id n s h
  have hsM := (cleanTriggers_parts h).2.2.2.2.2.2.2
  unfold javaWithImport
  rw [hr, hsM]
  rfl

theorem headMatch_self_append : ∀ p r : Str, headMatch p (p ++ r) = true := by
  intro p
  induction p with
  | nil => intro r; rfl
  | cons a p ih =>
    intro r
    simp [List.cons_append, headMatch, ih r]

theorem trimR_append (x : Str) : ∀ y : Str,
    trimR (x ++ y) = if trimR y = [] then trimR x else x ++ trimR y := by
  induction x with
  | nil =>
    intro y
    by_cases h : trimR y = [] <;> simp [h, trimR]
  | cons c x ih =>
    intro y
    simp only [List.cons_append, trimR]
    rw [show x.append y = x ++ y from rfl, ih y]
    by_cases h : trimR y = []
    · rw [if_pos h, if_pos h]
    · have hne : x ++ trimR y ≠ [] := by
        intro h0
        exact h (List.append_eq_nil.mp h0).2
      rw [if_neg h, if_neg h]
      cases hxy : x ++ trimR y with
      | nil => exact absurd hxy hne
      | cons a r => rfl

theorem trimL_cons_nonws {c : Char} (t : Str) (h : isWS c = false) :
    trimL (c :: t) = c :: t := by
  simp [trimL, List.dropWhile_cons, h]

theorem headMatch_trimL_package (z : Str) :
    headMatch (lit "package") (trimL (lit "package" ++ z)) = true := by
  have e3 : lit "package" ++ z = 'p' :: (lit "ackage" ++ z) := rfl
  rw [e3, trimL_cons_nonws (lit "ackage" ++ z) (by decide), ← e3]
  exact headMatch_self_append _ _

theorem trim_pkg_head (P rest : Str) :
    headMatch (lit "package")
      (trimStr ((lit "package " ++ P ++ lit ";\n\n") ++ rest)) = true := by
  have e1 : lit ";\n\n" = ';' :: '\n' :: '\n' :: [] := rfl
  have e2 : lit "package " = lit "package" ++ (' ' :: []) := rfl
  have hsplit : (lit "package " ++ P ++ lit ";\n\n") ++ rest =
      ((lit "package " ++ P) ++ (';' :: [])) ++ ('\n' :: '\n' :: rest) := by
    rw [e1]
    simp [List.append_assoc]
  have eX : (lit "package " ++ P) ++ (';' :: []) =
      lit "package" ++ ((' ' :: []) ++ (P ++ (';' :: []))) := by
    rw [e2]
    simp [List.append_assoc]
  have hX : trimR ((lit "package " ++ P) ++ (';' :: [])) =
      (lit "package " ++ P) ++ (';' :: []) := by
    rw [trimR_append]
    rw [if_neg (by decide : ¬(trimR (';' :: []) = []))]
    rfl
  rw [hsplit]
  unfold trimStr
  rw [trimR_append]
  by_cases hY : trimR ('\n' :: '\n' :: rest) = []
  · rw [if_pos hY, hX, eX]
    exact headMatch_trimL_package _
  · rw [if_neg hY, eX, List.append_assoc]
    exact headMatch_trimL_package _

set_option maxRecDepth 2048 in
/-- C7 counterexample: the normalizer is not idempotent.  On the content
"@NotN@NotNull ull " the annotation-token removal splices together a new
"@NotNull " token, so the first pass yields "@NotNull " and the second
pass yields "" — applying `processJavaFile` twice differs from applying it
once. -/
theorem c7_counterexample :
    processJavaFile (lit "A.java")
        (processJavaFile (lit "A.java") (lit "@NotN@NotNull ull ") (lit "Foo"))
        (lit "Foo") ≠
      processJavaFile (lit "A.java") (lit "@NotN@NotNull ull ") (lit "Foo") := by
  decide

/-- C7 (amended): the normalizer is a total function (the embedding raises
nothing), but it is idempotent only on contents free of the rewritten
tokens: when neither the content nor the content prefixed by the derived
package declaration contains any of the trigger tokens
(`pig.setAngry(`, a JetBrains import, `@NotNull `/`@Nullable `,
`com.yourusername`, `com.pegasus.plugin`, `yourusername`, `setMetadata`),
applying `processJavaFile` twice equals applying it once.  In general a
removal can splice together a new removable token and break idempotence,
as the counterexample shows. -/
theorem c7_normalizer_conditional_idempotence (p c n : Str)
    (h1 : cleanTriggers c = true)
    (h2 : cleanTriggers (pkgDecl p ++ c) = true) :
    processJavaFile p (processJavaFile p c n) n =
      processJavaFile p c n := by
  have hw := javaWithImport_id n c h1
  by_cases hpkg : (packageNameOf p == []) = true
  · have hy : processJavaFile p c n = c := by
      unfold processJavaFile
      rw [hw, hpkg]
      rfl
    rw [hy, hy]
  · by_cases hstart :
        headMatch (lit "package") (trimStr (javaWithImport n c)) = true
    · have hy : processJavaFile p c n = c := by
        unfold processJavaFile
        rw [hw] at hstart ⊢
        rw [hstart]
        simp
      rw [hy, hy]
    · have hcond : (!(packageNameOf p == []) &&
          !headMatch (lit "package") (trimStr c)) = true := by
        rw [hw] at hstart
        rw [Bool.eq_false_iff.mpr hpkg, Bool.eq_false_iff.mpr hstart]
        rfl
      have hpd : pkgDecl p =
          lit "package " ++ packageNameOf p ++ lit ";\n\n" := by
        unfold pkgDecl
        rw [if_neg (by simpa using hpkg)]
      have hy : processJavaFile p c n = pkgDecl p ++ c := by
        unfold processJavaFile
        rw [hw, hcond, hpd]
        rw [if_pos rfl]
      rw [hy]
      have hw2 := javaWithImport_id n (pkgDecl p ++ c) h2
      unfold processJavaFile
      rw [hw2]
      have hstart2 : headMatch (lit "package")
          (trimStr (pkgDecl p ++ c)) = true := by
        rw [hpd]
        exact trim_pkg_head (packageNameOf p) c
      rw [hstart2]
      simp

theorem c7_normalizer_conditional_idempotence_witness :
    processJavaFile (lit "src/main/java/com/x/A.java")
        (processJavaFile (lit "src/main/java/com/x/A.java")
          (lit "public class A") (lit "Foo"))
        (lit "Foo") =
      processJavaFile (lit "src/main/java/com/x/A.java")
        (lit "public class A") (lit "Foo") :=
  c7_normalizer_conditional_idempotence (lit "src/main/java/com/x/A.java")
    (lit "public class A") (lit "Foo") (by decide) (by decide)

theorem headMatch_take (pat : Str) : ∀ s : Str,
    headMatch pat (s.take pat.length) = headMatch pat s := by
  induction pat with
  | nil => intro s; rfl
  | cons a p ih =>
    intro s
    cases s with
    | nil => rfl
    | cons b t =>
      simp only [List.length_cons, List.take_succ_cons, headMatch]
      rw [ih t]

theorem headMatch_congr_prefix (pat : Str) {s s' : Str}
    (h : s.take pat.length = s'.take pat.length) :
    headMatch pat s = headMatch pat s' := by
  rw [← headMatch_take pat s, ← headMatch_take pat s', h]

theorem take_pad_eq (pat x rest : Str) (hx : 1 ≤ x.length)
    (hp : 1 ≤ pat.length) :
    (x ++ (pat ++ rest)).take pat.length =
      (x ++ pat.take (pat.length - 1)).take pat.length := by
  simp only [List.take_append_eq_append_take, List.take_take]
  have h0 : pat.length - x.length - pat.length = 0 := by omega
  have hmin : min (pat.length - x.length) (pat.length - 1) =
      pat.length - x.length := by omega
  rw [h0, List.take_zero, List.append_nil, hmin]

theorem hasSub_of_headMatch {pat s : Str} (h : headMatch pat s = true) :
    hasSub pat s = true := by
  cases s with
  | nil => exact h
  | cons c t => simp [hasSub, h]

theorem headMatch_length {pat s : Str} (h : headMatch pat s = true) :
    pat.length ≤ s.length := by
  obtain ⟨r, rfl⟩ := (headMatch_iff_append pat s).mp h
  simp

theorem scanEnd_len_lt : ∀ {s : Str} {cr : Str × Str}, scanEnd s = some cr →
    cr.2.length < s.length := by
  intro s
  induction s with
  | nil => intro cr h; simp [scanEnd] at h
  | cons a t ih =>
    intro cr h
    simp only [scanEnd] at h
    by_cases hm : headMatch mEnd (a :: t) = true
    · rw [if_pos hm] at h
      injection h with h1
      rw [← h1]
      dsimp only
      have h14 := headMatch_length hm
      have hE : mEnd.length = 14 := rfl
      rw [hE] at h14
      simp only [List.length_drop, List.length_cons] at h14 ⊢
      omega
    · rw [if_neg hm] at h
      obtain ⟨cr', hcr', hf⟩ := Option.map_eq_some'.mp h
      have hlt := ih hcr'
      rw [← hf]
      dsimp only
      simp only [List.length_cons]
      omega

theorem scanPathC_len_lt : ∀ {s : Str} {pcr : Str × Str × Str},
    scanPathC s = some pcr → pcr.2.2.length < s.length := by
  intro s
  induction s with
  | nil => intro pcr h; simp [scanPathC] at h
  | cons a t ih =>
    intro pcr h
    simp only [scanPathC] at h
    by_cases hm : headMatch dash3 (a :: t) = true
    · rw [if_pos hm] at h
      cases he : scanEnd ((a :: t).drop 3) with
      | none =>
        rw [he] at h
        dsimp only at h
        by_cases ha : (a == '\n') = true
        · rw [if_pos ha] at h; simp at h
        · rw [if_neg ha] at h
          obtain ⟨pcr', hpcr', hf⟩ := Option.map_eq_some'.mp h
          have hlt := ih hpcr'
          rw [← hf]
          dsimp only
          simp only [List.length_cons]
          omega
      | some cr =>
        rw [he] at h
        dsimp only at h
        injection h with h1
        have hlt := scanEnd_len_lt he
        rw [← h1]
        dsimp only
        simp only [List.length_drop, List.length_cons] at hlt ⊢
        omega
    · rw [if_neg hm] at h
      dsimp only at h
      by_cases ha : (a == '\n') = true
      · rw [if_pos ha] at h; simp at h
      · rw [if_neg ha] at h
        obtain ⟨pcr', hpcr', hf⟩ := Option.map_eq_some'.mp h
        have hlt := ih hpcr'
        rw [← hf]
        dsimp only
        simp only [List.length_cons]
        omega

theorem tryMatch_len_lt {s : Str} {pcr : Str × Str × Str}
    (h : tryMatch s = some pcr) : pcr.2.2.length < s.length := by
  unfold tryMatch at h
  by_cases hm : headMatch mStart s = true
  · rw [if_pos hm] at h
    have hlt := scanPathC_len_lt h
    have h14 := headMatch_length hm
    simp only [List.length_drop] at hlt
    omega
  · rw [if_neg hm] at h
    simp at h

theorem extractGo_nil : ∀ f : Nat, extractGo f [] = [] := by
  intro f
  cases f with
  | zero => rfl
  | succ f => rfl

theorem extractGo_congr : ∀ (f : Nat) (s : Str) (f' : Nat),
    s.length ≤ f → s.length ≤ f' → extractGo f s = extractGo f' s := by
  intro f
  induction f with
  | zero =>
    intro s f' h _
    have : s = [] := List.length_eq_zero.mp (Nat.le_zero.mp h)
    rw [this, extractGo_nil, extractGo_nil]
  | succ f ih =>
    intro s f' h h'
    cases s with
    | nil => rw [extractGo_nil, extractGo_nil]
    | cons a t =>
      cases f' with
      | zero => simp at h'
      | succ f'' =>
        cases hm : tryMatch (a :: t) with
        | none =>
          simp only [extractGo, hm]
          simp only [List.length_cons] at h h'
          exact ih t f'' (by omega) (by omega)
        | some pcr =>
          have hlt := tryMatch_len_lt hm
          simp only [extractGo, hm]
          simp only [List.length_cons] at h h' hlt
          rw [ih pcr.2.2 f'' (by omega) (by omega)]

theorem extractRaw_cons_skip {a : Char} {t : Str}
    (h : tryMatch (a :: t) = none) : extractRaw (a :: t) = extractRaw t := by
  unfold extractRaw
  simp only [List.length_cons, extractGo, h]

theorem extractRaw_match {s p c r : Str} (h : tryMatch s = some (p, c, r)) :
    extractRaw s = (p, c) :: extractRaw r := by
  cases s with
  | nil => simp [tryMatch, headMatch, mStart, lit] at h
  | cons a t =>
    unfold extractRaw
    simp only [List.length_cons, extractGo, h]
    have hlt := tryMatch_len_lt h
    simp only [List.length_cons] at hlt
    rw [extractGo_congr (t.length) r r.length (by omega) (by omega)]

theorem bool_not_true {b : Bool} (h : (!b) = true) : b = false := by
  cases b
  · rfl
  · simp at h

theorem bool_not_false {b : Bool} (h : b = false) : (!b) = true := by
  rw [h]; rfl

theorem bool_and_true {a b : Bool} (h : (a && b) = true) :
    a = true ∧ b = true := by
  cases a <;> cases b <;> simp_all

theorem bool_and_intro {a b : Bool} (h1 : a = true) (h2 : b = true) :
    (a && b) = true := by
  rw [h1, h2]; rfl

theorem scanEnd_spec : ∀ (c rest : Str),
    hasSub mEnd (c ++ mEnd.take 13) = false →
    scanEnd (c ++ (mEnd ++ rest)) = some (c, rest) := by
  intro c
  induction c with
  | nil =>
    intro rest _
    rw [List.nil_append]
    have e : mEnd ++ rest = '-' :: (lit "--FILE_END---" ++ rest) := rfl
    rw [e]
    simp only [scanEnd]
    have hm : headMatch mEnd ('-' :: (lit "--FILE_END---" ++ rest)) = true := by
      rw [← e]; exact headMatch_self_append _ _
    rw [if_pos hm]
    have hd : ('-' :: (lit "--FILE_END---" ++ rest)).drop 14 = rest := by
      rw [← e]
      have h14 : mEnd.length = 14 := rfl
      rw [← h14, List.drop_left]
    rw [hd]
  | cons x c' ih =>
    intro rest h
    obtain ⟨hhead, htail⟩ := hasSub_cons_false
      (show hasSub mEnd (x :: (c' ++ mEnd.take 13)) = false from h)
    have hne : headMatch mEnd (x :: (c' ++ (mEnd ++ rest))) = false := by
      have htk := take_pad_eq mEnd (x :: c') rest (by simp) (by decide)
      have hc := headMatch_congr_prefix mEnd htk
      rw [show x :: (c' ++ (mEnd ++ rest)) =
        (x :: c') ++ (mEnd ++ rest) from rfl, hc]
      exact hhead
    rw [show (x :: c') ++ (mEnd ++ rest) = x :: (c' ++ (mEnd ++ rest)) from rfl]
    simp only [scanEnd]
    rw [if_neg (by rw [hne]; simp)]
    rw [ih rest htail]
    rfl

theorem scanPathC_spec : ∀ (p c rest : Str), pathOk p = true →
    contentOk c = true →
    scanPathC (p ++ (dash3 ++ (c ++ (mEnd ++ rest)))) = some (p, c, rest) := by
  intro p
  induction p with
  | nil =>
    intro c rest _ hc
    rw [List.nil_append]
    have e : dash3 ++ (c ++ (mEnd ++ rest)) =
        '-' :: (lit "--" ++ (c ++ (mEnd ++ rest))) := rfl
    rw [e]
    simp only [scanPathC]
    have hm : headMatch dash3 ('-' :: (lit "--" ++ (c ++ (mEnd ++ rest)))) = true := by
      rw [← e]; exact headMatch_self_append _ _
    rw [if_pos hm]
    have hd : ('-' :: (lit "--" ++ (c ++ (mEnd ++ rest)))).drop 3 =
        c ++ (mEnd ++ rest) := by
      rw [← e]
      have h3 : dash3.length = 3 := rfl
      rw [← h3, List.drop_left]
    rw [hd, scanEnd_spec c rest (bool_not_true hc)]
  | cons x p' ih =>
    intro c rest hp hc
    have hp2 := bool_and_true hp
    have hall := hp2.1
    have hnd : hasSub dash3 ((x :: p') ++ dash3.take 2) = false :=
      bool_not_true hp2.2
    obtain ⟨hhead, htail⟩ := hasSub_cons_false
      (show hasSub dash3 (x :: (p' ++ dash3.take 2)) = false from hnd)
    have hxa : ((x != '\n') && p'.all (fun ch => ch != '\n')) = true := by
      simpa [List.all_cons] using hall
    have hxnl : (x != '\n') = true := (bool_and_true hxa).1
    have hallt : p'.all (fun ch => ch != '\n') = true := (bool_and_true hxa).2
    have hp' : pathOk p' = true := by
      unfold pathOk
      exact bool_and_intro hallt (bool_not_false htail)
    have hne : headMatch dash3 (x :: (p' ++ (dash3 ++ (c ++ (mEnd ++ rest))))) = false := by
      have htk := take_pad_eq dash3 (x :: p') (c ++ (mEnd ++ rest)) (by simp) (by decide)
      have hcg := headMatch_congr_prefix dash3 htk
      rw [show x :: (p' ++ (dash3 ++ (c ++ (mEnd ++ rest)))) =
        (x :: p') ++ (dash3 ++ (c ++ (mEnd ++ rest))) from rfl, hcg]
      exact hhead
    rw [show (x :: p') ++ (dash3 ++ (c ++ (mEnd ++ rest))) =
      x :: (p' ++ (dash3 ++ (c ++ (mEnd ++ rest)))) from rfl]
    simp only [scanPathC]
    rw [if_neg (by rw [hne]; simp)]
    dsimp only
    have hxn : (x == '\n') = false := by
      simpa [bne] using hxnl
    rw [if_neg (by rw [hxn]; simp)]
    rw [ih c rest hp' hc]
    rfl

theorem tryMatch_render (p c rest : Str) (hp : pathOk p = true)
    (hc : contentOk c = true) :
    tryMatch (renderBlock p c ++ rest) = some (p, c, rest) := by
  have e : renderBlock p c ++ rest =
      mStart ++ (p ++ (dash3 ++ (c ++ (mEnd ++ rest)))) := by
    unfold renderBlock
    simp [List.append_assoc]
  rw [e]
  unfold tryMatch
  rw [if_pos (headMatch_self_append _ _)]
  have hd : (mStart ++ (p ++ (dash3 ++ (c ++ (mEnd ++ rest))))).drop 14 =
      p ++ (dash3 ++ (c ++ (mEnd ++ rest))) := by
    have h14 : mStart.length = 14 := rfl
    rw [← h14, List.drop_left]
  rw [hd, scanPathC_spec p c rest hp hc]

theorem extractRaw_skip_junk : ∀ (j T : Str),
    hasSub mStart (j ++ mStart.take 13) = false →
    headMatch mStart T = true → extractRaw (j ++ T) = extractRaw T := by
  intro j
  induction j with
  | nil => intro T _ _; rw [List.nil_append]
  | cons x j' ih =>
    intro T hj hT
    obtain ⟨hhead, htail⟩ := hasSub_cons_false
      (show hasSub mStart (x :: (j' ++ mStart.take 13)) = false from hj)
    have hne : headMatch mStart ((x :: j') ++ T) = false := by
      obtain ⟨r, hr⟩ := (headMatch_iff_append mStart T).mp hT
      rw [hr]
      have htk := take_pad_eq mStart (x :: j') r (by simp) (by decide)
      have hcg := headMatch_congr_prefix mStart htk
      rw [hcg]
      exact hhead
    have hnone : tryMatch (x :: (j' ++ T)) = none := by
      unfold tryMatch
      rw [if_neg (by rw [show x :: (j' ++ T) = (x :: j') ++ T from rfl, hne]; simp)]
    rw [show (x :: j') ++ T = x :: (j' ++ T) from rfl,
      extractRaw_cons_skip hnone]
    exact ih T htail hT

theorem extractRaw_no_start : ∀ t : Str, hasSub mStart t = false →
    extractRaw t = [] := by
  intro t
  induction t with
  | nil => intro _; rfl
  | cons a s ih =>
    intro h
    obtain ⟨hhead, htail⟩ := hasSub_cons_false h
    have hnone : tryMatch (a :: s) = none := by
      unfold tryMatch
      rw [if_neg (by rw [hhead]; simp)]
    rw [extractRaw_cons_skip hnone]
    exact ih htail

theorem hasSub_of_drop (pat : Str) : ∀ (n : Nat) (s : Str),
    hasSub pat (s.drop n) = true → hasSub pat s = true := by
  intro n
  induction n with
  | zero => intro s h; simpa using h
  | succ n ih =>
    intro s h
    cases s with
    | nil => simpa using h
    | cons a t =>
      rw [List.drop_succ_cons] at h
      have ht : hasSub pat (t.drop n) = true := h
      have := ih t ht
      simp [hasSub, this]

theorem scanEnd_some_hasSub : ∀ {s : Str} {cr : Str × Str},
    scanEnd s = some cr → hasSub mEnd s = true := by
  intro s
  induction s with
  | nil => intro cr h; simp [scanEnd] at h
  | cons a t ih =>
    intro cr h
    simp only [scanEnd] at h
    by_cases hm : headMatch mEnd (a :: t) = true
    · exact hasSub_of_headMatch hm
    · rw [if_neg hm] at h
      obtain ⟨cr', hcr', _⟩ := Option.map_eq_some'.mp h
      have := ih hcr'
      simp [hasSub, this]

theorem scanPathC_some_hasSub : ∀ {s : Str} {pcr : Str × Str × Str},
    scanPathC s = some pcr → hasSub mEnd s = true := by
  intro s
  induction s with
  | nil => intro pcr h; simp [scanPathC] at h
  | cons a t ih =>
    intro pcr h
    simp only [scanPathC] at h
    by_cases hm : headMatch dash3 (a :: t) = true
    · rw [if_pos hm] at h
      cases he : scanEnd ((a :: t).drop 3) with
      | none =>
        rw [he] at h
        dsimp only at h
        by_cases ha : (a == '\n') = true
        · rw [if_pos ha] at h; simp at h
        · rw [if_neg ha] at h
          obtain ⟨pcr', hpcr', _⟩ := Option.map_eq_some'.mp h
          have := ih hpcr'
          simp [hasSub, this]
      | some cr =>
        have := scanEnd_some_hasSub he
        exact hasSub_of_drop mEnd 3 (a :: t) this
    · rw [if_neg hm] at h
      dsimp only at h
      by_cases ha : (a == '\n') = true
      · rw [if_pos ha] at h; simp at h
      · rw [if_neg ha] at h
        obtain ⟨pcr', hpcr', _⟩ := Option.map_eq_some'.mp h
        have := ih hpcr'
        simp [hasSub, this]

theorem tryMatch_some_hasSub {s : Str} {pcr : Str × Str × Str}
    (h : tryMatch s = some pcr) : hasSub mEnd s = true := by
  unfold tryMatch at h
  by_cases hm : headMatch mStart s = true
  · rw [if_pos hm] at h
    exact hasSub_of_drop mEnd 14 s (scanPathC_some_hasSub h)
  · rw [if_neg hm] at h
    simp at h

theorem extractRaw_no_end : ∀ t : Str, hasSub mEnd t = false →
    extractRaw t = [] := by
  intro t
  induction t with
  | nil => intro _; rfl
  | cons a s ih =>
    intro h
    obtain ⟨_, htail⟩ := hasSub_cons_false h
    cases hm : tryMatch (a :: s) with
    | some pcr =>
      have := tryMatch_some_hasSub hm
      rw [this] at h
      simp at h
    | none =>
      rw [extractRaw_cons_skip hm]
      exact ih htail

theorem extractRaw_assemble : ∀ (items : List (Str × Str × Str)) (jEnd : Str),
    items.all itemOk = true → hasSub mStart jEnd = false →
    extractRaw (assembleDoc items jEnd) =
      items.map (fun it => (it.2.1, it.2.2)) := by
  intro items
  induction items with
  | nil => intro jEnd _ hEnd; exact extractRaw_no_start jEnd hEnd
  | cons it rest ih =>
    intro jEnd hall hEnd
    obtain ⟨j, pp, cc⟩ := it
    have hall2 : (itemOk (j, pp, cc) && rest.all itemOk) = true := by
      simpa [List.all_cons] using hall
    obtain ⟨hit, hrest⟩ := bool_and_true hall2
    obtain ⟨hjp, hcc⟩ := bool_and_true hit
    obtain ⟨hj, hpp⟩ := bool_and_true hjp
    have hj' : hasSub mStart (j ++ mStart.take 13) = false := bool_not_true hj
    have hT : headMatch mStart (renderBlock pp cc ++ assembleDoc rest jEnd) = true := by
      have e : renderBlock pp cc ++ assembleDoc rest jEnd =
          mStart ++ ((pp ++ (dash3 ++ (cc ++ mEnd))) ++ assembleDoc rest jEnd) := by
        unfold renderBlock
        simp [List.append_assoc]
      rw [e]
      exact headMatch_self_append _ _
    show extractRaw (j ++ (renderBlock pp cc ++ assembleDoc rest jEnd)) = _
    rw [extractRaw_skip_junk j _ hj' hT,
      extractRaw_match (tryMatch_render pp cc (assembleDoc rest jEnd) hpp hcc),
      ih jEnd hrest hEnd]
    rfl

theorem lookupTree_map_other {p v q : Str} (h : (p == q) = false) :
    ∀ t : FileTree,
    lookupTree (t.map (fun e => if e.1 == p then (p, v) else e)) q =
      lookupTree t q := by
  intro t
  induction t with
  | nil => rfl
  | cons y ys ih =>
    simp only [List.map_cons]
    by_cases hy : (y.1 == p) = true
    · have hyp : y.1 = p := by simpa using hy
      have hyq : ¬((y.1 == q) = true) := by rw [hyp, h]; simp
      rw [if_pos hy]
      unfold lookupTree
      rw [List.find?_cons_of_neg (p := fun e : Str × Str => e.1 == q) _ (by simp [h]),
        List.find?_cons_of_neg (p := fun e : Str × Str => e.1 == q) _ hyq]
      exact ih
    · rw [if_neg hy]
      unfold lookupTree
      by_cases hyq : (y.1 == q) = true
      · rw [List.find?_cons_of_pos (p := fun e : Str × Str => e.1 == q) _ hyq, List.find?_cons_of_pos (p := fun e : Str × Str => e.1 == q) _ hyq]
      · rw [List.find?_cons_of_neg (p := fun e : Str × Str => e.1 == q) _ hyq, List.find?_cons_of_neg (p := fun e : Str × Str => e.1 == q) _ hyq]
        exact ih

theorem lookupTree_append_other {p v q : Str} (h : (p == q) = false) :
    ∀ t : FileTree, lookupTree (t ++ [(p, v)]) q = lookupTree t q := by
  intro t
  induction t with
  | nil =>
    rw [List.nil_append]
    unfold lookupTree
    rw [List.find?_cons_of_neg (p := fun e : Str × Str => e.1 == q) _ (by simp [h])]
  | cons y ys ih =>
    rw [List.cons_append]
    unfold lookupTree
    by_cases hyq : (y.1 == q) = true
    · rw [List.find?_cons_of_pos (p := fun e : Str × Str => e.1 == q) _ hyq, List.find?_cons_of_pos (p := fun e : Str × Str => e.1 == q) _ hyq]
    · rw [List.find?_cons_of_neg (p := fun e : Str × Str => e.1 == q) _ hyq, List.find?_cons_of_neg (p := fun e : Str × Str => e.1 == q) _ hyq]
      exact ih

theorem lookupTree_setFile_other {t : FileTree} {p v q : Str}
    (h : (p == q) = false) :
    lookupTree (setFile t p v) q = lookupTree t q := by
  unfold setFile
  by_cases ha : t.any (fun e => e.1 == p)
  · rw [if_pos ha]
    exact lookupTree_map_other h t
  · rw [if_neg ha]
    exact lookupTree_append_other h t

theorem buildTree_lookup (es : List (Str × Str)) (q : Str) :
    lookupTree (buildTree es) q =
      ((es.filter (fun x => x.1 == q)).map (fun x => x.2)).getLast? := by
  induction es using List.reverseRecOn with
  | nil => rfl
  | append_singleton es e ih =>
    unfold buildTree at ih ⊢
    rw [List.foldl_append]
    simp only [List.foldl_cons, List.foldl_nil]
    by_cases he : (e.1 == q) = true
    · have heq : e.1 = q := by simpa using he
      have hlook : lookupTree
          (setFile (es.foldl (fun t x => setFile t x.1 x.2) []) e.1 e.2) q =
          some e.2 := by
        rw [heq]
        exact lookupTree_setFile_self _ _ _
      rw [hlook, List.filter_append, List.map_append]
      simp only [List.filter_cons, he, if_pos, List.filter_nil, List.map_cons,
        List.map_nil]
      rw [List.getLast?_concat]
    · have he' : (e.1 == q) = false := Bool.eq_false_iff.mpr he
      rw [lookupTree_setFile_other he', ih, List.filter_append]
      simp only [List.filter_cons, he', Bool.false_eq_true, if_false,
        List.filter_nil, List.append_nil]

/-- C6 (amended): for every well-formed document — junk segments free of
(possibly straddling) start markers interleaved with well-formed blocks
whose paths contain no newline and no `---` and whose contents contain no
end marker — the extraction loop returns exactly one entry per block, in
document order, the path whitespace-trimmed and the content
whitespace-trimmed and then fence-stripped by `cleanContent`; assigning
the entries into a fresh object makes the last occurrence of a duplicate
path win; a text with no start marker or no end marker (in particular any
unterminated block) yields the empty tree without error. -/
theorem c6_extraction (items : List (Str × Str × Str)) (jEnd : Str)
    (hItems : items.all itemOk = true) (hEnd : hasSub mStart jEnd = false) :
    extractEntries (assembleDoc items jEnd) = items.map entryOf ∧
    extractFiles (assembleDoc items jEnd) = buildTree (items.map entryOf) ∧
    (∀ t : Str, hasSub mStart t = false → extractFiles t = []) ∧
    (∀ t : Str, hasSub mEnd t = false → extractFiles t = []) ∧
    (∀ (es : List (Str × Str)) (q : Str), lookupTree (buildTree es) q =
      ((es.filter (fun x => x.1 == q)).map (fun x => x.2)).getLast?) := by
  have hmain : extractEntries (assembleDoc items jEnd) = items.map entryOf := by
    unfold extractEntries
    rw [extractRaw_assemble items jEnd hItems hEnd, List.map_map]
    rfl
  refine ⟨hmain, ?_, ?_, ?_, ?_⟩
  · unfold extractFiles
    rw [hmain]
  · intro t ht
    unfold extractFiles extractEntries
    rw [extractRaw_no_start t ht]
    rfl
  · intro t ht
    unfold extractFiles extractEntries
    rw [extractRaw_no_end t ht]
    rfl
  · exact buildTree_lookup

theorem c6_extraction_witness :
    extractEntries (assembleDoc
      [(lit "intro ", lit " a.txt ", lit "\nhello\n"),
       (lit " mid ", lit "b/c.xml", lit "<x/>"),
       (lit "", lit "b/c.xml", lit " two ")] (lit " tail")) =
      [(lit "a.txt", lit "hello"), (lit "b/c.xml", lit "<x/>"),
       (lit "b/c.xml", lit "two")] :=
  (c6_extraction
    [(lit "intro ", lit " a.txt ", lit "\nhello\n"),
     (lit " mid ", lit "b/c.xml", lit "<x/>"),
     (lit "", lit "b/c.xml", lit " two ")] (lit " tail")
    (by decide) (by decide)).1

end GemniApi
